import Mathlib

/-!
Verification of the Walkman music-discovery repository's reconciliation core.

This file gives a shallow embedding, in Lean 4, of the pure computational
core of the repository:

* `src/utils.py` : `normalize_string`, `similarity_ratio` (difflib's
  `SequenceMatcher.ratio`), `find_matching_file`;
* `src/itunes_integrator.py` : `classify_songs`, `integrate_approved_songs`;
* `src/music_discovery.py` : the exclusion set of `load_existing_songs` and
  the candidate-proposal loop of `_get_album_tracks_from_artists`;
* `process_approved_songs.py` : the STEP-3 ledger merge and its
  backup-then-save write sequence.

Modelling conventions:

* Python strings are `List Char`.  The character predicates `str.isalnum`,
  `str.isspace` and the mapping `str.lower` are modelled on the ASCII range
  plus the two code points U+0130 (LATIN CAPITAL LETTER I WITH DOT ABOVE,
  whose Python lowercase expansion is the two-character string U+0069 U+0307)
  and U+0307 (COMBINING DOT ABOVE, not alphanumeric); every other code point
  is modelled as non-alphanumeric, non-space and fixed by lowercasing.
* Python floats are modelled as exact rationals `ℚ`.  Every score produced
  by the code is a small rational `2*M/(len a + len b)` compared against the
  constant `0.75`; at these magnitudes double rounding cannot move a value
  across the threshold, so the rational model is observationally faithful.
* File-system effects (copy / delete / JSON writes) are recorded as explicit
  event lists; the I/O primitives themselves are modelled as succeeding.
-/

set_option maxHeartbeats 1000000

namespace Walkman

/-- Python strings, modelled as lists of characters. -/
abbrev Str := List Char

/-- Coerce a Lean string literal to the model's string type. -/
def str (s : String) : Str := s.data

/-- Model of Python `str.isalnum` on a single character: ASCII digits and
letters, plus the modelled non-ASCII letter U+0130. -/
def pyIsAlnum (c : Char) : Bool :=
  (48 ≤ c.toNat && c.toNat ≤ 57) || (65 ≤ c.toNat && c.toNat ≤ 90) ||
  (97 ≤ c.toNat && c.toNat ≤ 122) || c.toNat = 304

/-- Model of Python `str.isspace` on a single character (ASCII whitespace). -/
def pyIsSpace (c : Char) : Bool :=
  c.toNat = 32 || c.toNat = 9 || c.toNat = 10 || c.toNat = 11 ||
  c.toNat = 12 || c.toNat = 13

/-- Model of Python `str.lower` on a single character.  Python's case
mapping is full Unicode case mapping, under which U+0130 lowercases to the
two-character sequence U+0069 U+0307; ASCII uppercase letters map to their
lowercase forms; every other modelled character is fixed. -/
def pyLower (c : Char) : Str :=
  if c.toNat = 304 then [Char.ofNat 105, Char.ofNat 775]
  else if 65 ≤ c.toNat ∧ c.toNat ≤ 90 then [Char.ofNat (c.toNat + 32)]
  else [c]

/-- The character filter of `normalize_string`: keep a character iff it is
alphanumeric or whitespace (the filter is applied to the character *before*
lowercasing, exactly as in the Python generator expression). -/
def keepChar (c : Char) : Bool := pyIsAlnum c || pyIsSpace c

/-- Python `str.lstrip` (whitespace variant): drop the maximal whitespace
prefix. -/
def pyLstrip (s : Str) : Str := s.dropWhile pyIsSpace

/-- Python `str.rstrip` (whitespace variant): drop the maximal whitespace
suffix. -/
def pyRstrip (s : Str) : Str := (pyLstrip s.reverse).reverse

/-- Python `str.strip` (whitespace variant). -/
def pyStrip (s : Str) : Str := pyLstrip (pyRstrip s)

/-- Function `normalize_string` from `src/utils.py`:
`''.join(c.lower() for c in s if c.isalnum() or c.isspace()).strip()`. -/
def normalize_string (s : Str) : Str :=
  pyStrip ((s.filter keepChar).flatMap pyLower)

/-! ### difflib.SequenceMatcher

`similarity_ratio` in `src/utils.py` is
`SequenceMatcher(None, normalize_string(a), normalize_string(b)).ratio()`.
The definitions below embed CPython's `difflib.SequenceMatcher` with
`isjunk = None` and the default `autojunk = True`: `__chain_b` builds, for
each character of `b`, the ascending list of its positions, dropping
"popular" characters (more than `len(b) // 100 + 1` occurrences) when
`len(b) >= 200`; `find_longest_match` runs the row dynamic program and the
four junk-aware extension loops; `ratio` is twice the total size of the
matching blocks divided by the total length. -/

/-- Ascending list of the positions of character `c` in `b`
(difflib's `b2j[c]` before junk removal). -/
def positions (b : Str) (c : Char) : List Nat :=
  (List.range b.length).filter fun j => decide (b.getD j ' ' = c)

/-- difflib's junk set `bjunk` for `isjunk = None`: with `autojunk`, a
character is junk iff `b` has length at least 200 and the character occurs
more than `len(b) / 100 + 1` times in `b`. -/
def bjunk (b : Str) (c : Char) : Bool :=
  decide (200 ≤ b.length) && decide (b.length / 100 + 1 < (positions b c).length)

/-- difflib's `b2j` mapping after junk removal: positions of `c` in `b`,
or the empty list when `c` is junk. -/
def b2j (b : Str) (c : Char) : List Nat :=
  if bjunk b c then [] else positions b c

/-- A matching block `(i, j, size)` as returned by `find_longest_match`. -/
structure MatchBlock where
  i : Nat
  j : Nat
  size : Nat
deriving DecidableEq, Repr

/-- Inner loop of `find_longest_match` over one row `i`: walk the ascending
position list `js` of `a[i]` in `b`, skipping `j < blo` (`continue`) and
stopping at `j >= bhi` (`break`); each processed `j` records the diagonal
run length `k = j2len.get(j-1, 0) + 1` (looked up in the *previous* row's
map `prev`) into the current row's map, and strictly longer runs update the
best block. -/
def flmRow (prev : Nat → Nat) (i blo bhi : Nat) :
    List Nat → (Nat → Nat) → MatchBlock → ((Nat → Nat) × MatchBlock)
  | [], cur, best => (cur, best)
  | j :: js, cur, best =>
    if j < blo then flmRow prev i blo bhi js cur best
    else if bhi ≤ j then (cur, best)
    else
      let k := (if j = 0 then 0 else prev (j - 1)) + 1
      let cur2 : Nat → Nat := fun j2 => if j2 = j then k else cur j2
      let best2 := if best.size < k then MatchBlock.mk (i + 1 - k) (j + 1 - k) k else best
      flmRow prev i blo bhi js cur2 best2

/-- Outer loop of `find_longest_match` over the rows `is` (the indices
`alo, ..., ahi-1` of `a`); each row starts from an empty current map. -/
def flmRows (a : Str) (b2jf : Char → List Nat) (blo bhi : Nat) :
    List Nat → (Nat → Nat) → MatchBlock → MatchBlock
  | [], _, best => best
  | i :: is, j2len, best =>
    let p := flmRow j2len i blo bhi (b2jf (a.getD i ' ')) (fun _ => 0) best
    flmRows a b2jf blo bhi is p.1 p.2

/-- Backward extension loops of `find_longest_match`: while the characters
just before the block are equal and the `b`-side character's junkness equals
`useJunk`, grow the block backwards (`useJunk = false` is the second loop of
the Python source, `useJunk = true` the fourth).  Recursion is structural in
`besti`, which the loop decrements; at `besti = 0` the guard `besti > alo`
is false and the loop exits, which the base case returns directly. -/
def extendBack (a b : Str) (useJunk : Bool) (alo blo : Nat) :
    Nat → Nat → Nat → Nat × Nat × Nat
  | 0, bj, k => (0, bj, k)
  | bi + 1, bj, k =>
    if alo < bi + 1 ∧ blo < bj ∧ bjunk b (b.getD (bj - 1) ' ') = useJunk
        ∧ a.getD bi ' ' = b.getD (bj - 1) ' ' then
      extendBack a b useJunk alo blo bi (bj - 1) (k + 1)
    else (bi + 1, bj, k)

/-- Forward extension loop body with explicit fuel; the fuel is only a
structural-termination device: `extendFwd` supplies `ahi - (bi + k)`, which
is invariant under the step `k ↦ k + 1` and reaches 0 exactly when the
guard `bi + k < ahi` has failed, so the fueled loop computes the Python
`while` loop's result. -/
def extendFwdAux (a b : Str) (useJunk : Bool) (ahi bhi bi bj : Nat) :
    Nat → Nat → Nat
  | 0, k => k
  | fuel + 1, k =>
    if bi + k < ahi ∧ bj + k < bhi ∧ bjunk b (b.getD (bj + k) ' ') = useJunk
        ∧ a.getD (bi + k) ' ' = b.getD (bj + k) ' ' then
      extendFwdAux a b useJunk ahi bhi bi bj fuel (k + 1)
    else k

/-- Forward extension loops of `find_longest_match`: while the characters
just after the block are equal and the `b`-side character's junkness equals
`useJunk`, grow the block forwards. -/
def extendFwd (a b : Str) (useJunk : Bool) (ahi bhi bi bj k : Nat) : Nat :=
  extendFwdAux a b useJunk ahi bhi bi bj (ahi - (bi + k)) k

/-- The best block after the row dynamic program of `find_longest_match`
(the state of `besti, bestj, bestsize` when the main loop finishes). -/
def flmPhase0 (a b : Str) (alo ahi blo bhi : Nat) : MatchBlock :=
  flmRows a (b2j b) blo bhi (List.range' alo (ahi - alo))
    (fun _ => 0) (MatchBlock.mk alo blo 0)

/-- The block after the first (non-junk backward) extension loop, as
`(besti, bestj, bestsize)`. -/
def flmPhase1 (a b : Str) (alo ahi blo bhi : Nat) : Nat × Nat × Nat :=
  extendBack a b false alo blo (flmPhase0 a b alo ahi blo bhi).i
    (flmPhase0 a b alo ahi blo bhi).j (flmPhase0 a b alo ahi blo bhi).size

/-- The size after the second (non-junk forward) extension loop. -/
def flmPhase2 (a b : Str) (alo ahi blo bhi : Nat) : Nat :=
  extendFwd a b false ahi bhi (flmPhase1 a b alo ahi blo bhi).1
    (flmPhase1 a b alo ahi blo bhi).2.1 (flmPhase1 a b alo ahi blo bhi).2.2

/-- The block after the third (junk backward) extension loop. -/
def flmPhase3 (a b : Str) (alo ahi blo bhi : Nat) : Nat × Nat × Nat :=
  extendBack a b true alo blo (flmPhase1 a b alo ahi blo bhi).1
    (flmPhase1 a b alo ahi blo bhi).2.1 (flmPhase2 a b alo ahi blo bhi)

/-- difflib's `SequenceMatcher.find_longest_match(alo, ahi, blo, bhi)`:
the row dynamic program followed by the four extension loops (non-junk
backward, non-junk forward, junk backward, junk forward), phased as the
successive values of the Python locals `besti, bestj, bestsize`. -/
def find_longest_match (a b : Str) (alo ahi blo bhi : Nat) : MatchBlock :=
  MatchBlock.mk (flmPhase3 a b alo ahi blo bhi).1 (flmPhase3 a b alo ahi blo bhi).2.1
    (extendFwd a b true ahi bhi (flmPhase3 a b alo ahi blo bhi).1
      (flmPhase3 a b alo ahi blo bhi).2.1 (flmPhase3 a b alo ahi blo bhi).2.2)

/-- Total size of the matching blocks of `get_matching_blocks`, computed by
the same divide-and-conquer as difflib's queue (the queue order does not
affect the sum).  The `fuel` argument only serves termination: every
recursive call strictly shrinks the `a`-interval `[alo, ahi)`, so any fuel
exceeding `ahi - alo` computes the fixpoint. -/
def matchTotalFuel (a b : Str) : Nat → Nat → Nat → Nat → Nat → Nat
  | 0, _, _, _, _ => 0
  | fuel + 1, alo, ahi, blo, bhi =>
    let m := find_longest_match a b alo ahi blo bhi
    if m.size = 0 then 0
    else m.size + matchTotalFuel a b fuel alo m.i blo m.j
        + matchTotalFuel a b fuel (m.i + m.size) ahi (m.j + m.size) bhi

/-- The value `sum(size for (i, j, size) in get_matching_blocks())` over the whole of
`a` and `b`. -/
def matchTotal (a b : Str) : Nat :=
  matchTotalFuel a b (a.length + 1) 0 a.length 0 b.length

/-- difflib's `SequenceMatcher.ratio()`: `2*M / (len(a)+len(b))`, and `1.0`
when both strings are empty (`_calculate_ratio`).  The exact rational is
built with `mkRat` (kernel-computable); `sm_ratio_eq_div` below states the
usual division form. -/
def sm_ratio (a b : Str) : ℚ :=
  if a.length + b.length = 0 then 1
  else mkRat (2 * matchTotal a b) (a.length + b.length)

/-- Function `similarity_ratio` from `src/utils.py`:
`SequenceMatcher(None, normalize_string(a), normalize_string(b)).ratio()`. -/
def similarity_ratio (a b : Str) : ℚ :=
  sm_ratio (normalize_string a) (normalize_string b)

/-- The 0.75 approval threshold, as an exact rational in `mkRat` form so
that every threshold comparison in the embedded code is kernel-computable. -/
def threshold75 : ℚ := mkRat 3 4

/-! ### Data model

A song record as it appears in the JSON ledgers.  Only the fields consulted
by the verified operations are modelled (`track_id`, `title`, `artist`,
`album`); the remaining enrichment fields (`year`, `genre`, `bpm`, ...) are
carried opaquely by none of the claims and are omitted.  A missing or empty
`track_id` is falsy in Python (`metadata.get('track_id')`); `truthyId`
captures that truthiness. -/

structure Song where
  track_id : Option Str
  title : Str
  artist : Str
  album : Str
deriving DecidableEq, Repr

/-- The canonical ID of a record when it carries one, in the Python sense of
`metadata.get('track_id')` being truthy (present and non-empty). -/
def truthyId (s : Song) : Option Str :=
  match s.track_id with
  | none => none
  | some t => if t = [] then none else some t

/-- A track read from an iTunes / iPod playlist (the approval signal):
`get_on_the_go_playlist_tracks` records exactly title, artist and album. -/
structure OTGTrack where
  title : Str
  artist : Str
  album : Str
deriving DecidableEq, Repr

/-- A file on disk, identified by its extension-stripped name
(`pathlib.Path.stem`); all comparisons in the source use only the stem. -/
structure MediaFile where
  stem : Str
deriving DecidableEq, Repr

/-! ### Matcher: `find_matching_file` from `src/utils.py` -/

/-- The query pattern `"{title} - {artist}"` built by `find_matching_file`
(and by `integrate_approved_songs` as `song_name`). -/
def songName (m : Song) : Str := m.title ++ str " - " ++ m.artist

/-- The similarity of one candidate file against the query pattern. -/
def fileScore (expected : Str) (f : MediaFile) : ℚ :=
  similarity_ratio expected f.stem

/-- The scan loop of `find_matching_file`: fold over the whole candidate
list keeping the best score, updating only on a strict improvement
(`score > best_score`), starting from `(None, 0.0)`. -/
def fmfScan (expected : Str) (files : List MediaFile) :
    Option MediaFile × ℚ :=
  files.foldl
    (fun acc f => if acc.2 < fileScore expected f then (some f, fileScore expected f) else acc)
    (none, 0)

/-- Function `find_matching_file(metadata, file_list, threshold)` from
`src/utils.py`: full scan, then return `(best_match, best_score)` when
`best_score >= threshold` and `(None, best_score)` otherwise. -/
def find_matching_file (m : Song) (files : List MediaFile) (threshold : ℚ) :
    Option MediaFile × ℚ :=
  if threshold ≤ (fmfScan (songName m) files).2 then fmfScan (songName m) files
  else (none, (fmfScan (songName m) files).2)

/-! ### Approval classifier: `classify_songs` from `src/itunes_integrator.py` -/

/-- The normalized comparison pattern `normalize_string("{title} {artist}")`
of an approval-signal track. -/
def otgPattern (t : OTGTrack) : Str :=
  normalize_string (t.title ++ [' '] ++ t.artist)

/-- The normalized comparison pattern `normalize_string("{title} {artist}")`
of a discovered record. -/
def songPattern (m : Song) : Str :=
  normalize_string (m.title ++ [' '] ++ m.artist)

/-- The approval test of `classify_songs`: some pattern of the signal pool
reaches similarity at least 0.75 with the record's pattern (the Python
source iterates a *set* of patterns with an early `break`; the outcome only
depends on membership, so the insertion-ordered list of patterns is a
faithful model). -/
def isApproved (otg : List OTGTrack) (m : Song) : Bool :=
  (otg.map otgPattern).any fun p =>
    decide (threshold75 ≤ similarity_ratio (songPattern m) p)

/-- Function `classify_songs`: partition the discovered batch, in order, into the
approved records (pattern matched in the signal pool) and the rejected
rest. -/
def classify_songs (discovered : List Song) (otg : List OTGTrack) :
    List Song × List Song :=
  discovered.partition (isApproved otg)

/-! ### Stage transition driver: `integrate_approved_songs` from
`src/itunes_integrator.py` -/

/-- A recorded file-system effect of the integration loop. -/
inductive FsEvent where
  | copyToLibrary (f : MediaFile)
  | copyToStaging (f : MediaFile)
  | deleteFromDiscovered (f : MediaFile)
deriving DecidableEq, Repr

/-- The artifact lookup of `integrate_approved_songs` (and of
`handle_rejected_songs`): scan the discovery directory in order and take the
*first* file whose similarity with `"{title} - {artist}"` is at least 0.75
(the loop `break`s at the first hit). -/
def selectSource (name : Str) (pool : List MediaFile) : Option MediaFile :=
  pool.find? fun f => decide (threshold75 ≤ similarity_ratio name f.stem)

/-- State threaded through the integration loop: the current contents of
the discovery directory (re-globbed each iteration, so deletions are
visible), the success and failure tallies, and the file-system events
performed so far. -/
structure IntegrateState where
  pool : List MediaFile
  successful : Nat
  failed : Nat
  events : List FsEvent
deriving DecidableEq, Repr

/-- One iteration of `integrate_approved_songs`: no matching artifact means
log-and-count (`failed += 1`, `continue` — no exception, no effect);
otherwise copy the file to the library, copy it to staging, delete it from
the discovery directory, and count a success. -/
def integrateStep (st : IntegrateState) (m : Song) : IntegrateState :=
  match selectSource (songName m) st.pool with
  | none => IntegrateState.mk st.pool st.successful (st.failed + 1) st.events
  | some f =>
      IntegrateState.mk (st.pool.erase f) (st.successful + 1) st.failed
        (st.events ++ [FsEvent.copyToLibrary f, FsEvent.copyToStaging f,
          FsEvent.deleteFromDiscovered f])

/-- Function `integrate_approved_songs(approved)` with the discovery directory
initially holding `pool`. -/
def integrate_approved_songs (approved : List Song) (pool : List MediaFile) :
    IntegrateState :=
  approved.foldl integrateStep (IntegrateState.mk pool 0 0 [])

/-! ### Ledger merger: STEP 3 of `process_approved_songs.main` -/

/-- The deduplication state of the merge loop: the ledger being extended,
the set of canonical IDs seen (insertion-ordered list; only membership is
consulted), and the two tallies. -/
structure MergeState where
  ledger : List Song
  ids : List Str
  added : Nat
  dups : Nat
deriving DecidableEq, Repr

/-- The initial ID set
`{s.get('track_id') for s in liked_songs if s.get('track_id')}`. -/
def existingIds (ledger : List Song) : List Str := ledger.filterMap truthyId

/-- One iteration of the merge loop: a record whose truthy canonical ID is
already known is counted as a duplicate and dropped; otherwise it is
appended, its ID (if truthy) is recorded, and the added tally grows. -/
def mergeStep (st : MergeState) (m : Song) : MergeState :=
  match truthyId m with
  | some t =>
      if t ∈ st.ids then MergeState.mk st.ledger st.ids st.added (st.dups + 1)
      else MergeState.mk (st.ledger ++ [m]) (st.ids ++ [t]) (st.added + 1) st.dups
  | none => MergeState.mk (st.ledger ++ [m]) st.ids (st.added + 1) st.dups

/-- The STEP-3 merge of `process_approved_songs.main`. -/
def mergeLedger (ledger newRecords : List Song) : MergeState :=
  newRecords.foldl mergeStep (MergeState.mk ledger (existingIds ledger) 0 0)

/-- A JSON write performed by the script, as a path plus the serialized
record list (identical record lists serialize to identical bytes, so list
equality models byte identity). -/
structure WriteEvent where
  path : Str
  content : List Song
deriving DecidableEq, Repr

/-- The sibling backup path `liked_songs_metadata.backup.json`. -/
def backupPath : Str := str "liked_songs_metadata.backup.json"

/-- The ledger path `liked_songs_metadata.json`. -/
def ledgerPath : Str := str "liked_songs_metadata.json"

/-- The write sequence of STEP 3 after the merge loop: the source first
dumps `liked_songs` — already extended by the merge — to the backup path,
then dumps the same list to the ledger path. -/
def saveLedgerWrites (ledger newRecords : List Song) : List WriteEvent :=
  let st := mergeLedger ledger newRecords
  [WriteEvent.mk backupPath st.ledger, WriteEvent.mk ledgerPath st.ledger]

/-! ### Discovery engine: exclusion set and candidate proposal from
`src/music_discovery.py` -/

/-- The exclusion set built by `load_existing_songs`: the truthy track IDs
of every record across the four loaded partitions, in order (a Python set;
only membership is consulted). -/
def load_exclusions (liked approved discovered rejected : List Song) : List Str :=
  (liked ++ approved ++ discovered ++ rejected).filterMap truthyId

/-- A candidate track as returned by the remote catalog
(`album_tracks` items); `id` may be null. -/
structure SpTrack where
  id : Option Str
  name : Str
deriving DecidableEq, Repr

/-- Truthiness of `track['id']`. -/
def truthyTrackId (t : SpTrack) : Option Str :=
  match t.id with
  | none => none
  | some s => if s = [] then none else some s

/-- State of the proposal loop of `_get_album_tracks_from_artists`: the
mutable exclusion set and the proposals made so far. -/
structure DiscoveryState where
  excluded : List Str
  proposed : List SpTrack
deriving DecidableEq, Repr

/-- The track-level loop body of `_get_album_tracks_from_artists`, applied
to the stream of candidate tracks the album iteration yields: a candidate
with a truthy ID not yet excluded is proposed and its ID immediately added
to the exclusion set; after every candidate the loop stops once
`max_tracks` proposals exist.  (The fetched `full_track` carries the same
ID as the candidate, so the candidate itself stands in for it.) -/
def proposeFromTracks (maxTracks : Nat) :
    List SpTrack → DiscoveryState → DiscoveryState
  | [], st => st
  | t :: rest, st =>
    let st2 :=
      match truthyTrackId t with
      | some tid =>
          if tid ∈ st.excluded then st
          else DiscoveryState.mk (st.excluded ++ [tid]) (st.proposed ++ [t])
      | none => st
    if maxTracks ≤ st2.proposed.length then st2
    else proposeFromTracks maxTracks rest st2

/-! ### Spec-side gadgets and concrete inputs used by the verification -/

/-- The concrete record used in the C1 counterexample. -/
def rC1 : Song := Song.mk (some (str "id1")) (str "t") (str "a") (str "al")

/-- The five concrete records of the C4 witness scenario. -/
def batch5 : List Song :=
  [Song.mk (some (str "e1")) (str "t1") (str "a1") [],
   Song.mk (some (str "e2")) (str "t2") (str "a2") [],
   Song.mk (some (str "e3")) (str "t3") (str "a3") [],
   Song.mk (some (str "e4")) (str "t4") (str "a4") [],
   Song.mk (some (str "e5")) (str "t5") (str "a5") []]

/-- The ID-less concrete record of the C4 counterexample. -/
def rNoId : Song := Song.mk none (str "t") (str "a") (str "b")

/-- The three discovered records and the single approval-signal entry of
the C2 scenario: `c2song1`'s pattern scores exactly 0.9 against the signal
entry, the other two score 0.1. -/
def c2song1 : Song := Song.mk none (str "abcde") (str "fghi") []

/-- Second scenario record (no match in the signal). -/
def c2song2 : Song := Song.mk none (str "vwxyz") (str "qrst") []

/-- Third scenario record (no match in the signal). -/
def c2song3 : Song := Song.mk none (str "nnnnn") (str "mmmm") []

/-- The single approval-signal entry of the C2 scenario. -/
def c2track : OTGTrack := OTGTrack.mk (str "abcde") (str "fghk") (str "alb")

/-- The maximum similarity over a candidate pool (0 for the empty pool) —
the quantity `find_matching_file` is claimed to track. -/
def maxScore (name : Str) (files : List MediaFile) : ℚ :=
  files.foldl (fun q f => max q (fileScore name f)) 0

/-- The concrete song of the C3 counterexample (its pattern shares no
character with the candidate's). -/
def c3song : Song := Song.mk none (str "ab") (str "cd") []

/-- The concrete candidate of the C3 counterexample. -/
def c3file : MediaFile := MediaFile.mk (str "xyz")

/-- The concrete song of the C3 witness. -/
def c3wsong : Song := Song.mk none (str "abcde") (str "fghij") []

/-- The concrete candidate of the C3 witness (similarity 11/12 against the
song's pattern). -/
def c3wfile : MediaFile := MediaFile.mk (str "abcde - fghiy")

/-- The concrete approved song of the C5 counterexample. -/
def c5song : Song := Song.mk none (str "abcde") (str "fghij") []

/-- First (earlier, lower-scoring) discovery-directory file of the C5
counterexample: similarity 5/6 against the song name. -/
def c5f1 : MediaFile := MediaFile.mk (str "abcde - fghxy")

/-- Second (later, higher-scoring) discovery-directory file of the C5
counterexample: similarity 11/12 against the song name. -/
def c5f2 : MediaFile := MediaFile.mk (str "abcde - fghiy")

/-- The unmatched concrete record of the C9 witness (its pattern shares no
character with the pool's only file). -/
def c9bad : Song := Song.mk none (str "qqqq") (str "wwww") []

/-- The matched concrete record of the C9 witness. -/
def c9good : Song := Song.mk none (str "abcde") (str "fghij") []

/-- The single discovery-directory file of the C9 witness. -/
def c9file : MediaFile := MediaFile.mk (str "abcde - fghij")

/-- An already-known concrete track for the C7 witness. -/
def c7known : SpTrack := SpTrack.mk (some (str "k1")) (str "known")

/-- A fresh concrete track for the C7 witness. -/
def c7fresh : SpTrack := SpTrack.mk (some (str "f1")) (str "fresh")

/-- Whether position `t` of `x` holds an (autojunk-)junk character. -/
def junkAt (x : Str) (t : Nat) : Bool := bjunk x (x.getD t ' ')

/-- Length of the maximal non-junk run of positions ending at `t` and
staying at or above `lo` — the length of the diagonal match run ending at
row `t` in the dynamic program on identical strings. -/
def diagRun (x : Str) (lo : Nat) : Nat → Nat
  | 0 => if lo = 0 ∧ junkAt x 0 = false then 1 else 0
  | t + 1 => if t + 1 < lo ∨ junkAt x (t + 1) = true then 0 else diagRun x lo t + 1

/-! ## Lemmas about stripping and normalization (claim C8) -/

/-- Division form of `sm_ratio` for nonempty inputs. -/
theorem sm_ratio_eq_div (a b : Str) (h : a.length + b.length ≠ 0) :
    sm_ratio a b = (2 * matchTotal a b : ℚ) / ((a.length : ℚ) + (b.length : ℚ)) := by
  unfold sm_ratio
  rw [if_neg h, Rat.mkRat_eq_div]
  push_cast
  ring_nf

/-- The threshold is the rational 3/4. -/
theorem threshold75_eq : threshold75 = (3 : ℚ)/4 := by
  unfold threshold75
  rw [Rat.mkRat_eq_div]
  norm_num

/-- A character produced by `Char.ofNat` on a valid code point keeps that
code point. -/
theorem toNat_ofNat_valid (n : Nat) (h : n < 55296) : (Char.ofNat n).toNat = n := by
  have hv : Nat.isValidChar n := Or.inl h
  simp only [Char.ofNat, dif_pos hv, Char.ofNatAux, Char.toNat]
  rfl

/-- Heads surviving `dropWhile` fail the predicate. -/
theorem head_dropWhile_false (p : Char → Bool) (l : List Char) (c : Char)
    (h : (l.dropWhile p).head? = some c) : p c = false := by
  have := List.head?_dropWhile_not p l
  rw [h] at this
  exact this

/-- Function `dropWhile` fixes any list whose head (if any) fails the predicate. -/
theorem dropWhile_of_head_false (p : Char → Bool) (l : List Char)
    (h : ∀ c, l.head? = some c → p c = false) : l.dropWhile p = l := by
  cases l with
  | nil => rfl
  | cons c t =>
      have hc : p c = false := h c rfl
      simp [List.dropWhile, hc]

/-- Stripping on the left is idempotent. -/
theorem pyLstrip_idem (l : Str) : pyLstrip (pyLstrip l) = pyLstrip l := by
  unfold pyLstrip
  exact List.dropWhile_idempotent _ _

/-- Membership is preserved from `pyStrip l` back to `l`. -/
theorem mem_of_mem_pyStrip {c : Char} {l : Str} (h : c ∈ pyStrip l) : c ∈ l := by
  unfold pyStrip pyLstrip pyRstrip at h
  have h1 := (List.dropWhile_sublist _).subset h
  have h2 := List.mem_reverse.mp h1
  have h3 := (List.dropWhile_sublist _).subset h2
  exact List.mem_reverse.mp h3

/-- Stripping is idempotent. -/
theorem pyStrip_idem (l : Str) : pyStrip (pyStrip l) = pyStrip l := by
  -- y := pyStrip l has no leading whitespace (it is a dropWhile result),
  -- and no trailing whitespace (it is a suffix of pyRstrip l, which has none).
  have hlast : ∀ c, (pyStrip l).reverse.head? = some c → pyIsSpace c = false := by
    intro c hc
    unfold pyStrip pyLstrip at hc
    have hsplit := List.takeWhile_append_dropWhile pyIsSpace (pyRstrip l)
    have hrev : (pyRstrip l).reverse
        = ((pyRstrip l).dropWhile pyIsSpace).reverse
          ++ ((pyRstrip l).takeWhile pyIsSpace).reverse := by
      rw [← List.reverse_append, hsplit]
    cases hxr : ((pyRstrip l).dropWhile pyIsSpace).reverse with
    | nil => rw [hxr] at hc; cases hc
    | cons d t =>
        rw [hxr] at hc
        have hdc : d = c := by
          have : some d = some c := hc
          injection this
        subst hdc
        have hh : (pyRstrip l).reverse.head? = some d := by
          rw [hrev, hxr]; rfl
        have hr : (pyRstrip l).reverse = l.reverse.dropWhile pyIsSpace := by
          unfold pyRstrip pyLstrip
          rw [List.reverse_reverse]
        rw [hr] at hh
        exact head_dropWhile_false pyIsSpace l.reverse d hh
  have hnohead : ∀ c, (pyStrip l).head? = some c → pyIsSpace c = false := by
    intro c hc
    unfold pyStrip pyLstrip at hc
    exact head_dropWhile_false pyIsSpace (pyRstrip l) c hc
  show pyLstrip (pyRstrip (pyStrip l)) = pyStrip l
  have h1 : pyRstrip (pyStrip l) = pyStrip l := by
    unfold pyRstrip pyLstrip
    rw [dropWhile_of_head_false pyIsSpace (pyStrip l).reverse hlast, List.reverse_reverse]
  rw [h1]
  show (pyStrip l).dropWhile pyIsSpace = pyStrip l
  exact dropWhile_of_head_false pyIsSpace (pyStrip l) hnohead

/-- Every character emitted by the lowercasing pass on an input free of
U+0130 passes the keep-filter again and is fixed by a second lowercasing. -/
theorem lower_output_stable (c : Char) (hkeep : keepChar c = true)
    (hno : c.toNat ≠ 304) :
    ∀ d ∈ pyLower c, keepChar d = true ∧ pyLower d = [d] := by
  intro d hd
  unfold pyLower at hd
  by_cases hup : 65 ≤ c.toNat ∧ c.toNat ≤ 90
  · rw [if_neg hno, if_pos hup] at hd
    have hdc : d = Char.ofNat (c.toNat + 32) := List.mem_singleton.mp hd
    subst hdc
    have htn : (Char.ofNat (c.toNat + 32)).toNat = c.toNat + 32 :=
      toNat_ofNat_valid _ (by omega)
    constructor
    · unfold keepChar pyIsAlnum pyIsSpace
      simp only [htn, Bool.or_eq_true, Bool.and_eq_true, decide_eq_true_eq]
      omega
    · unfold pyLower
      rw [htn, if_neg (by omega), if_neg (by omega)]
  · rw [if_neg hno, if_neg hup] at hd
    have hdc : d = c := List.mem_singleton.mp hd
    subst hdc
    refine ⟨hkeep, ?_⟩
    unfold pyLower
    rw [if_neg hno, if_neg hup]

/-- Lists all of whose characters are filter-stable and lowercase-fixed are
fixed by the filter-and-lower pass. -/
theorem flatMap_pyLower_fixed (l : Str)
    (h : ∀ c ∈ l, keepChar c = true ∧ pyLower c = [c]) :
    (l.filter keepChar).flatMap pyLower = l := by
  rw [List.filter_eq_self.mpr fun c hc => (h c hc).1]
  induction l with
  | nil => rfl
  | cons c t ih =>
      rw [List.flatMap_cons, (h c (by simp)).2, ih fun d hd => h d (by simp [hd])]
      rfl

/-- C8, amended half: `normalize_string` is idempotent on every string not
containing U+0130. -/
theorem normalize_idem_of_no_dotted_i (s : Str)
    (hs : ∀ c ∈ s, c.toNat ≠ 304) :
    normalize_string (normalize_string s) = normalize_string s := by
  unfold normalize_string
  set m := (s.filter keepChar).flatMap pyLower with hm
  have hgood : ∀ c ∈ m, keepChar c = true ∧ pyLower c = [c] := by
    intro c hc
    rw [hm] at hc
    obtain ⟨c0, hc0, hcl⟩ := List.mem_flatMap.mp hc
    have hc0k : keepChar c0 = true := (List.mem_filter.mp hc0).2
    have hc0m : c0 ∈ s := (List.mem_filter.mp hc0).1
    exact lower_output_stable c0 hc0k (hs c0 hc0m) c hcl
  have hstrip_good : ∀ c ∈ pyStrip m, keepChar c = true ∧ pyLower c = [c] :=
    fun c hc => hgood c (mem_of_mem_pyStrip hc)
  rw [flatMap_pyLower_fixed (pyStrip m) hstrip_good]
  exact pyStrip_idem m

/-- C8 (corrected).  Normalization is idempotent on every string that does
not contain U+0130: for such `s`,
`normalize(normalize(s)) = normalize(s)`.  (The unrestricted claim fails:
Python lowercases U+0130 to U+0069 U+0307, and the combining dot — neither
alphanumeric nor whitespace — is removed by a second normalization pass.) -/
theorem normalize_string_idem_no_dotted_capital_i (s : Str)
    (hs : ∀ c ∈ s, c.toNat ≠ 304) :
    normalize_string (normalize_string s) = normalize_string s :=
  normalize_idem_of_no_dotted_i s hs

/-- C8 witness: the amended idempotence at the concrete input `"Ab C!"`. -/
theorem normalize_string_idem_witness :
    normalize_string (normalize_string (str "Ab C!")) = normalize_string (str "Ab C!") :=
  normalize_string_idem_no_dotted_capital_i (str "Ab C!") (by decide)

/-- C8 counterexample: on the one-character string U+0130 ('İ'),
`normalize` is not idempotent — the first pass yields "i" followed by
U+0307, the second pass drops the combining dot. -/
theorem normalize_string_not_idempotent_at_dotted_capital_i :
    normalize_string (normalize_string [Char.ofNat 304]) ≠ normalize_string [Char.ofNat 304] := by
  decide

/-! ## Ledger merge: claims C1 and C4 -/

/-- The duplicate branch of the merge loop. -/
theorem mergeStep_dup (st : MergeState) (m : Song) (t : Str)
    (hm : truthyId m = some t) (ht : t ∈ st.ids) :
    mergeStep st m = MergeState.mk st.ledger st.ids st.added (st.dups + 1) := by
  simp [mergeStep, hm, ht]

/-- The append branch of the merge loop for a record with a fresh ID. -/
theorem mergeStep_new (st : MergeState) (m : Song) (t : Str)
    (hm : truthyId m = some t) (ht : t ∉ st.ids) :
    mergeStep st m
      = MergeState.mk (st.ledger ++ [m]) (st.ids ++ [t]) (st.added + 1) st.dups := by
  simp [mergeStep, hm, ht]

/-- The append branch of the merge loop for a record without a truthy ID. -/
theorem mergeStep_none (st : MergeState) (m : Song) (hm : truthyId m = none) :
    mergeStep st m
      = MergeState.mk (st.ledger ++ [m]) st.ids (st.added + 1) st.dups := by
  simp [mergeStep, hm]

/-- The merge loop only ever appends to the ledger. -/
theorem mergeFold_ledger_extends (batch : List Song) :
    ∀ st : MergeState, ∃ rest, (batch.foldl mergeStep st).ledger = st.ledger ++ rest := by
  induction batch with
  | nil => intro st; exact ⟨[], by simp⟩
  | cons m rest ih =>
      intro st
      rw [List.foldl_cons]
      cases hm : truthyId m with
      | none =>
          rw [mergeStep_none st m hm]
          obtain ⟨r, hr⟩ := ih (MergeState.mk (st.ledger ++ [m]) st.ids (st.added + 1) st.dups)
          exact ⟨m :: r, by rw [hr]; simp⟩
      | some t =>
          by_cases ht : t ∈ st.ids
          · rw [mergeStep_dup st m t hm ht]
            obtain ⟨r, hr⟩ := ih (MergeState.mk st.ledger st.ids st.added (st.dups + 1))
            exact ⟨r, by rw [hr]⟩
          · rw [mergeStep_new st m t hm ht]
            obtain ⟨r, hr⟩ :=
              ih (MergeState.mk (st.ledger ++ [m]) (st.ids ++ [t]) (st.added + 1) st.dups)
            exact ⟨m :: r, by rw [hr]; simp⟩

/-- C1 (corrected).  For every starting ledger and batch, the STEP-3 save
performs exactly two writes, the backup first: but the backup receives the
*merged* ledger content (the pre-merge records extended by the newly added
ones), and the very same merged content is then written to the ledger path.
The pre-merge records survive as a prefix of the backup, but the backup is
not the pre-merge snapshot the claim describes. -/
theorem saveLedger_backup_first_holds_merged_content (ledger newRecords : List Song) :
    saveLedgerWrites ledger newRecords
      = [WriteEvent.mk backupPath (mergeLedger ledger newRecords).ledger,
         WriteEvent.mk ledgerPath (mergeLedger ledger newRecords).ledger]
    ∧ ∃ rest, (mergeLedger ledger newRecords).ledger = ledger ++ rest := by
  refine ⟨rfl, ?_⟩
  exact mergeFold_ledger_extends newRecords _

/-- C1 counterexample: merging one new record into an empty ledger, the
first write is to the backup path but carries the merged content `[rC1]`,
not the pre-merge content `[]`. -/
theorem saveLedger_backup_not_premerge :
    (saveLedgerWrites [] [rC1]).head? = some (WriteEvent.mk backupPath [rC1])
    ∧ ¬ ((saveLedgerWrites [] [rC1]).head?.map WriteEvent.content
          = some ([] : List Song)) := by
  decide

/-- The merge loop never forgets an ID it has seen. -/
theorem mergeFold_ids_mono (batch : List Song) :
    ∀ st : MergeState, ∀ t ∈ st.ids, t ∈ (batch.foldl mergeStep st).ids := by
  induction batch with
  | nil => intro st t ht; exact ht
  | cons m rest ih =>
      intro st t ht
      rw [List.foldl_cons]
      refine ih (mergeStep st m) t ?_
      cases hm : truthyId m with
      | none => rw [mergeStep_none st m hm]; exact ht
      | some u =>
          by_cases hu : u ∈ st.ids
          · rw [mergeStep_dup st m u hm hu]; exact ht
          · rw [mergeStep_new st m u hm hu]; simp [ht]

/-- After merging a batch, the truthy ID of every batch record is known. -/
theorem mergeFold_batch_ids (batch : List Song) :
    ∀ st : MergeState, ∀ m ∈ batch, ∀ t, truthyId m = some t →
      t ∈ (batch.foldl mergeStep st).ids := by
  induction batch with
  | nil => intro _ m hm; cases hm
  | cons m0 rest ih =>
      intro st m hm t ht
      rw [List.foldl_cons]
      rcases List.mem_cons.mp hm with h0 | h0
      · subst h0
        refine mergeFold_ids_mono rest (mergeStep st m) t ?_
        by_cases hu : t ∈ st.ids
        · rw [mergeStep_dup st m t ht hu]; exact hu
        · rw [mergeStep_new st m t ht hu]; simp
      · exact ih (mergeStep st m0) m h0 t ht

/-- Invariant of the merge loop: the ID set is exactly the truthy-ID
projection of the ledger. -/
theorem mergeFold_ids_eq_existing (batch : List Song) :
    ∀ st : MergeState, st.ids = existingIds st.ledger →
      (batch.foldl mergeStep st).ids = existingIds (batch.foldl mergeStep st).ledger := by
  induction batch with
  | nil => intro st h; exact h
  | cons m rest ih =>
      intro st h
      rw [List.foldl_cons]
      refine ih (mergeStep st m) ?_
      cases hm : truthyId m with
      | none =>
          rw [mergeStep_none st m hm]
          show st.ids = existingIds (st.ledger ++ [m])
          unfold existingIds
          rw [List.filterMap_append]
          simp [List.filterMap, hm, h, existingIds]
      | some t =>
          by_cases hu : t ∈ st.ids
          · rw [mergeStep_dup st m t hm hu]; exact h
          · rw [mergeStep_new st m t hm hu]
            show st.ids ++ [t] = existingIds (st.ledger ++ [m])
            unfold existingIds
            rw [List.filterMap_append]
            simp [List.filterMap, hm, h, existingIds]

/-- If every record of the batch carries an already-known truthy ID, the
merge adds nothing and counts every record as a duplicate. -/
theorem mergeFold_all_duplicates (batch : List Song) :
    ∀ st : MergeState, (∀ m ∈ batch, ∃ t, truthyId m = some t ∧ t ∈ st.ids) →
      batch.foldl mergeStep st
        = MergeState.mk st.ledger st.ids st.added (st.dups + batch.length) := by
  induction batch with
  | nil => intro st _; simp
  | cons m rest ih =>
      intro st h
      rw [List.foldl_cons]
      obtain ⟨t, ht, hmem⟩ := h m (by simp)
      rw [mergeStep_dup st m t ht hmem]
      have := ih (MergeState.mk st.ledger st.ids st.added (st.dups + 1))
        (fun m2 hm2 => h m2 (by simp [hm2]))
      rw [this]
      simp [List.length_cons]
      omega

/-- C4 (corrected).  When every record of the batch carries a truthy
canonical ID, the merge is idempotent: re-merging the identical batch into
the merged ledger adds nothing, reports every record as a duplicate, and
leaves the ledger unchanged.  (Records lacking a canonical ID are always
appended, so the unrestricted claim fails.) -/
theorem mergeLedger_idempotent_on_id_batches (ledger batch : List Song)
    (hid : ∀ m ∈ batch, (truthyId m).isSome) :
    (mergeLedger (mergeLedger ledger batch).ledger batch).added = 0
    ∧ (mergeLedger (mergeLedger ledger batch).ledger batch).dups = batch.length
    ∧ (mergeLedger (mergeLedger ledger batch).ledger batch).ledger
        = (mergeLedger ledger batch).ledger := by
  set st1 := mergeLedger ledger batch with hst1
  have hids : st1.ids = existingIds st1.ledger := by
    rw [hst1]
    exact mergeFold_ids_eq_existing batch _ rfl
  have hall : ∀ m ∈ batch, ∃ t, truthyId m = some t
      ∧ t ∈ (MergeState.mk st1.ledger (existingIds st1.ledger) 0 0).ids := by
    intro m hm
    rcases hsome : truthyId m with _ | t
    · exact absurd (hsome ▸ hid m hm) (by simp)
    · refine ⟨t, rfl, ?_⟩
      show t ∈ existingIds st1.ledger
      rw [← hids, hst1]
      exact mergeFold_batch_ids batch _ m hm t hsome
  have := mergeFold_all_duplicates batch
    (MergeState.mk st1.ledger (existingIds st1.ledger) 0 0) hall
  unfold mergeLedger
  rw [this]
  exact ⟨rfl, by simp, rfl⟩

/-- C4 witness: merging five fresh records into an empty ledger reports
`(5, 0)`; re-merging the same five reports `(0, 5)` (by the amended
theorem). -/
theorem mergeLedger_idempotent_witness :
    (mergeLedger [] batch5).added = 5 ∧ (mergeLedger [] batch5).dups = 0
    ∧ (mergeLedger (mergeLedger [] batch5).ledger batch5).added = 0
    ∧ (mergeLedger (mergeLedger [] batch5).ledger batch5).dups = batch5.length := by
  refine ⟨by decide, by decide, ?_, ?_⟩
  · exact (mergeLedger_idempotent_on_id_batches [] batch5 (by decide)).1
  · exact (mergeLedger_idempotent_on_id_batches [] batch5 (by decide)).2.1

/-- C4 counterexample: for a batch holding one record without a canonical
ID, the second merge re-appends the record and reports `(1, 0)`, not the
claimed `(0, 1)`. -/
theorem mergeLedger_not_idempotent_without_ids :
    (mergeLedger (mergeLedger [] [rNoId]).ledger [rNoId]).added = 1
    ∧ (mergeLedger (mergeLedger [] [rNoId]).ledger [rNoId]).dups = 0
    ∧ ¬ ((mergeLedger (mergeLedger [] [rNoId]).ledger [rNoId]).added = 0
          ∧ (mergeLedger (mergeLedger [] [rNoId]).ledger [rNoId]).dups = 1) := by
  decide

/-! ## Approval classifier: claims C2 and C10 -/

/-- The approval test succeeds exactly when some signal entry's pattern
reaches similarity 0.75 with the record's pattern. -/
theorem isApproved_iff (otg : List OTGTrack) (m : Song) :
    isApproved otg m = true
      ↔ ∃ t ∈ otg, (3 : ℚ)/4 ≤ similarity_ratio (songPattern m) (otgPattern t) := by
  unfold isApproved
  simp only [threshold75_eq]
  rw [List.any_eq_true]
  constructor
  · rintro ⟨p, hp, hle⟩
    obtain ⟨t, ht, rfl⟩ := List.mem_map.mp hp
    exact ⟨t, ht, of_decide_eq_true hle⟩
  · rintro ⟨t, ht, hle⟩
    exact ⟨otgPattern t, List.mem_map.mpr ⟨t, ht, rfl⟩, decide_eq_true hle⟩

/-- Filtering a list by a predicate and its negation splits its length. -/
theorem filter_not_length (p : Song → Bool) (l : List Song) :
    (l.filter p).length + (l.filter fun a => !(p a)).length = l.length := by
  induction l with
  | nil => rfl
  | cons m rest ih =>
      cases hm : p m with
      | true =>
          simp only [List.filter_cons, hm, Bool.not_true, if_true, if_false,
            Bool.false_eq_true, List.length_cons, ite_true, ite_false]
          omega
      | false =>
          simp only [List.filter_cons, hm, Bool.not_false, if_true, if_false,
            Bool.false_eq_true, List.length_cons, ite_true, ite_false]
          omega

/-- Filtering a list by a predicate and its negation splits each record's
multiplicity. -/
theorem filter_not_count (p : Song → Bool) (l : List Song) (m : Song) :
    (l.filter p).count m + (l.filter fun a => !(p a)).count m = l.count m := by
  induction l with
  | nil => rfl
  | cons a rest ih =>
      simp only [List.filter_cons, List.count_cons]
      cases ha : p a with
      | true =>
          simp only [ha, Bool.not_true, ite_true, ite_false, Bool.false_eq_true,
            List.count_cons]
          omega
      | false =>
          simp only [ha, Bool.not_false, ite_true, ite_false, Bool.false_eq_true,
            List.count_cons]
          omega

/-- C2 (confirmed).  Classification partitions every discovered batch: the
two output lengths sum to the batch length and each record's multiplicity
is split between the two outputs; a record is approved exactly when some
approval-signal entry's normalized title-artist pattern reaches similarity
0.75 with the record's normalized pattern; and in the concrete scenario of
a 3-record batch whose signal matches exactly one record at similarity 0.9,
classification yields 1 approved and 2 rejected. -/
theorem classify_songs_partitions (discovered : List Song) (otg : List OTGTrack) :
    (classify_songs discovered otg).1.length + (classify_songs discovered otg).2.length
      = discovered.length
    ∧ (∀ m : Song, (classify_songs discovered otg).1.count m
        + (classify_songs discovered otg).2.count m = discovered.count m)
    ∧ (∀ m : Song, m ∈ (classify_songs discovered otg).1
        ↔ m ∈ discovered
          ∧ ∃ t ∈ otg, (3 : ℚ)/4 ≤ similarity_ratio (songPattern m) (otgPattern t))
    ∧ (∀ m : Song, m ∈ (classify_songs discovered otg).2
        ↔ m ∈ discovered
          ∧ ¬ ∃ t ∈ otg, (3 : ℚ)/4 ≤ similarity_ratio (songPattern m) (otgPattern t))
    ∧ classify_songs [c2song1, c2song2, c2song3] [c2track]
        = ([c2song1], [c2song2, c2song3])
    ∧ similarity_ratio (songPattern c2song1) (otgPattern c2track) = (9 : ℚ)/10 := by
  unfold classify_songs
  rw [List.partition_eq_filter_filter]
  refine ⟨filter_not_length _ _, fun m => filter_not_count _ _ m, ?_, ?_, ?_, ?_⟩
  · intro m
    rw [List.mem_filter, isApproved_iff]
  · intro m
    rw [List.mem_filter]
    constructor
    · rintro ⟨hmem, hnot⟩
      refine ⟨hmem, ?_⟩
      intro hex
      have := (isApproved_iff otg m).mpr hex
      simp only [Function.comp_apply, this] at hnot
      simp at hnot
    · rintro ⟨hmem, hnot⟩
      refine ⟨hmem, ?_⟩
      simp only [Function.comp_apply]
      cases hb : isApproved otg m with
      | false => rfl
      | true => exact absurd ((isApproved_iff otg m).mp hb) hnot
  · decide
  · have h9 : similarity_ratio (songPattern c2song1) (otgPattern c2track) = mkRat 9 10 := by
      decide
    rw [h9, Rat.mkRat_eq_div]
    norm_num

/-- Classification depends on the approval signal only through pattern
membership: two signals with the same set of normalized patterns classify
every batch identically. -/
theorem classify_songs_pattern_membership (discovered : List Song)
    (otg1 otg2 : List OTGTrack)
    (h : ∀ p, p ∈ otg1.map otgPattern ↔ p ∈ otg2.map otgPattern) :
    classify_songs discovered otg1 = classify_songs discovered otg2 := by
  have happ : ∀ m, isApproved otg1 m = isApproved otg2 m := by
    intro m
    rcases h1 : isApproved otg1 m with _ | _
    · rcases h2 : isApproved otg2 m with _ | _
      · rfl
      · exfalso
        obtain ⟨t, ht, hle⟩ := (isApproved_iff otg2 m).mp h2
        have : isApproved otg1 m = true := by
          rw [isApproved_iff]
          obtain ⟨t1, ht1, heq⟩ := List.mem_map.mp ((h (otgPattern t)).mpr
            (List.mem_map.mpr ⟨t, ht, rfl⟩))
          exact ⟨t1, ht1, heq ▸ hle⟩
        rw [h1] at this
        cases this
    · obtain ⟨t, ht, hle⟩ := (isApproved_iff otg1 m).mp h1
      obtain ⟨t2, ht2, heq⟩ := List.mem_map.mp ((h (otgPattern t)).mp
        (List.mem_map.mpr ⟨t, ht, rfl⟩))
      have : isApproved otg2 m = true := by
        rw [isApproved_iff]
        exact ⟨t2, ht2, heq ▸ hle⟩
      rw [this]
  unfold classify_songs
  rw [List.partition_eq_filter_filter, List.partition_eq_filter_filter]
  have h2 : (not ∘ isApproved otg1) = (not ∘ isApproved otg2) := by
    funext m
    simp [Function.comp_apply, happ m]
  rw [List.filter_congr fun m _ => happ m, h2]

/-- C10 (confirmed).  Classification never reads the album field of the
approval signal: signals agreeing pointwise on title and artist — and, more
generally, signals with the same set of normalized title-artist patterns,
regardless of order or multiplicity — produce identical partitions. -/
theorem classify_songs_album_insensitive (discovered : List Song)
    (otg1 otg2 : List OTGTrack) :
    (List.Forall₂ (fun t1 t2 : OTGTrack => t1.title = t2.title ∧ t1.artist = t2.artist)
        otg1 otg2
      → classify_songs discovered otg1 = classify_songs discovered otg2)
    ∧ ((∀ p, p ∈ otg1.map otgPattern ↔ p ∈ otg2.map otgPattern)
      → classify_songs discovered otg1 = classify_songs discovered otg2) := by
  constructor
  · intro h
    have hmap : otg1.map otgPattern = otg2.map otgPattern := by
      induction h with
      | nil => rfl
      | cons h1 _ ih =>
          simp only [List.map_cons, ih, List.cons.injEq, and_true]
          unfold otgPattern
          rw [h1.1, h1.2]
    exact classify_songs_pattern_membership discovered otg1 otg2 (by rw [hmap]; simp)
  · exact classify_songs_pattern_membership discovered otg1 otg2

/-- C10 witness: two one-entry signals sharing title and artist but with
different albums classify a concrete record identically. -/
theorem classify_songs_album_insensitive_witness :
    classify_songs [c2song1] [OTGTrack.mk (str "abcde") (str "fghi") (str "albumX")]
      = classify_songs [c2song1] [OTGTrack.mk (str "abcde") (str "fghi") (str "albumY")] :=
  (classify_songs_album_insensitive [c2song1] _ _).1
    (List.Forall₂.cons ⟨rfl, rfl⟩ List.Forall₂.nil)

/-! ## Matcher: claim C3 -/

/-- A max-fold never drops below its seed. -/
theorem foldl_max_seed_le (g : MediaFile → ℚ) (l : List MediaFile) :
    ∀ s : ℚ, s ≤ l.foldl (fun q f => max q (g f)) s := by
  induction l with
  | nil => intro s; exact le_refl s
  | cons f rest ih =>
      intro s
      exact le_trans (le_max_left s (g f)) (ih (max s (g f)))

/-- A max-fold dominates the score of every pool member. -/
theorem foldl_max_mem_le (g : MediaFile → ℚ) (l : List MediaFile) :
    ∀ s : ℚ, ∀ f ∈ l, g f ≤ l.foldl (fun q f => max q (g f)) s := by
  induction l with
  | nil => intro _ f hf; cases hf
  | cons f0 rest ih =>
      intro s f hf
      rcases List.mem_cons.mp hf with h0 | h0
      · subst h0
        exact le_trans (le_max_right s (g f)) (foldl_max_seed_le g rest (max s (g f)))
      · exact ih (max s (g f0)) f h0

/-- A max-fold over a pool dominated by the seed returns the seed. -/
theorem foldl_max_dominated (g : MediaFile → ℚ) (l : List MediaFile) :
    ∀ s : ℚ, (∀ f ∈ l, g f ≤ s) → l.foldl (fun q f => max q (g f)) s = s := by
  induction l with
  | nil => intro s _; rfl
  | cons f0 rest ih =>
      intro s h
      rw [List.foldl_cons, max_eq_left (h f0 (by simp))]
      exact ih s fun f hf => h f (by simp [hf])

/-- A max-fold is either its seed or attained by a pool member. -/
theorem foldl_max_attained (g : MediaFile → ℚ) (l : List MediaFile) :
    ∀ s : ℚ, l.foldl (fun q f => max q (g f)) s = s
      ∨ ∃ f ∈ l, l.foldl (fun q f => max q (g f)) s = g f := by
  induction l with
  | nil => intro s; exact Or.inl rfl
  | cons f0 rest ih =>
      intro s
      rcases ih (max s (g f0)) with h | ⟨f, hf, hval⟩
      · rcases max_cases s (g f0) with ⟨hm, _⟩ | ⟨hm, _⟩
        · exact Or.inl (by rw [List.foldl_cons, h, hm])
        · exact Or.inr ⟨f0, by simp, by rw [List.foldl_cons, h, hm]⟩
      · exact Or.inr ⟨f, by simp [hf], by rw [List.foldl_cons, hval]⟩

/-- The pool holds a strictly-better-than-seed candidate iff the max-fold
strictly exceeds the seed. -/
theorem foldl_max_any (g : MediaFile → ℚ) (l : List MediaFile) (s : ℚ) :
    (l.any fun f => decide (s < g f)) = true
      ↔ s < l.foldl (fun q f => max q (g f)) s := by
  constructor
  · intro h
    obtain ⟨f, hf, hlt⟩ := List.any_eq_true.mp h
    exact lt_of_lt_of_le (of_decide_eq_true hlt) (foldl_max_mem_le g l s f hf)
  · intro h
    by_contra hno
    have hall : ∀ f ∈ l, g f ≤ s := by
      intro f hf
      by_contra hgt
      exact hno (List.any_eq_true.mpr ⟨f, hf, decide_eq_true (lt_of_not_le hgt)⟩)
    rw [foldl_max_dominated g l s hall] at h
    exact lt_irrefl s h

/-- Full characterization of the scan loop of `find_matching_file`: the
final score is the running maximum, and the retained candidate is the first
pool member attaining that maximum when some member strictly improved on
the seed, or the seed candidate otherwise. -/
theorem fmfScan_characterization (g : MediaFile → ℚ) (l : List MediaFile) :
    ∀ (o : Option MediaFile) (s : ℚ),
      l.foldl (fun acc f => if acc.2 < g f then (some f, g f) else acc) (o, s)
        = (if (l.any fun f => decide (s < g f)) then
             l.find? (fun f => decide (l.foldl (fun q f => max q (g f)) s ≤ g f))
           else o,
           l.foldl (fun q f => max q (g f)) s) := by
  induction l with
  | nil => intro o s; simp
  | cons f0 rest ih =>
      intro o s
      rw [List.foldl_cons, List.foldl_cons]
      by_cases hlt : s < g f0
      · rw [if_pos hlt]
        have hmax : max s (g f0) = g f0 := max_eq_right (le_of_lt hlt)
        rw [ih (some f0) (g f0), hmax]
        have hany : ((f0 :: rest).any fun f => decide (s < g f)) = true :=
          List.any_eq_true.mpr ⟨f0, by simp, decide_eq_true hlt⟩
        rw [if_pos hany]
        by_cases hrest : (rest.any fun f => decide (g f0 < g f)) = true
        · rw [if_pos hrest]
          have hM : g f0 < rest.foldl (fun q f => max q (g f)) (g f0) :=
            (foldl_max_any g rest (g f0)).mp hrest
          rw [List.find?_cons_of_neg _ (by simp [not_le.mpr hM])]
        · rw [if_neg hrest]
          have hall : ∀ f ∈ rest, g f ≤ g f0 := by
            intro f hf
            by_contra hgt
            exact hrest (List.any_eq_true.mpr ⟨f, hf, decide_eq_true (lt_of_not_le hgt)⟩)
          rw [foldl_max_dominated g rest (g f0) hall]
          rw [List.find?_cons_of_pos _ (by simp)]
      · rw [if_neg hlt]
        have hmax : max s (g f0) = s := max_eq_left (le_of_not_lt hlt)
        rw [ih o s, hmax]
        have hhead : (decide (s < g f0)) = false := decide_eq_false hlt
        by_cases hrest : (rest.any fun f => decide (s < g f)) = true
        · rw [if_pos hrest, if_pos (by rw [List.any_cons, hhead, Bool.false_or]; exact hrest)]
          have hM : s < rest.foldl (fun q f => max q (g f)) s :=
            (foldl_max_any g rest s).mp hrest
          have hnf : ¬ (rest.foldl (fun q f => max q (g f)) s ≤ g f0) :=
            not_le.mpr (lt_of_le_of_lt (le_of_not_lt hlt) hM)
          rw [List.find?_cons_of_neg _ (by simp [hnf])]
        · rw [if_neg hrest, if_neg (by rw [List.any_cons, hhead, Bool.false_or]; exact hrest)]

/-- A successful `find?` splits its list into a failing prefix, the found
element, and a remainder. -/
theorem find?_decomposition (p : MediaFile → Bool) (l : List MediaFile) (f : MediaFile)
    (h : l.find? p = some f) :
    ∃ l1 l2, l = l1 ++ f :: l2 ∧ p f = true ∧ ∀ g ∈ l1, p g = false := by
  induction l with
  | nil => cases h
  | cons a rest ih =>
      cases ha : p a with
      | true =>
          rw [List.find?_cons_of_pos _ ha] at h
          have : a = f := by injection h
          subst this
          exact ⟨[], rest, rfl, ha, by intro g hg; cases hg⟩
      | false =>
          rw [List.find?_cons_of_neg _ (by simp [ha])] at h
          obtain ⟨l1, l2, hsplit, hpf, hpre⟩ := ih h
          refine ⟨a :: l1, l2, by rw [hsplit]; rfl, hpf, ?_⟩
          intro g hg
          rcases List.mem_cons.mp hg with h0 | h0
          · subst h0; exact ha
          · exact hpre g h0

/-- C3 counterexample: with one candidate scoring exactly 0.0 and threshold
0.0, the maximum (0.0) reaches the threshold, yet `find_matching_file`
returns `(None, 0.0)` — not the first candidate attaining the maximum as
the claim requires. -/
theorem find_matching_file_zero_max_counterexample :
    find_matching_file c3song [c3file] 0 = (none, 0)
    ∧ maxScore (songName c3song) [c3file] = 0
    ∧ ¬ ((find_matching_file c3song [c3file] 0).1 = some c3file) := by
  refine ⟨?_, ?_, ?_⟩ <;> decide

/-- C3 (corrected).  `find_matching_file` scans the whole pool: the
returned score is always the maximum similarity over every candidate; on an
empty pool it returns `(None, 0.0)` for every threshold; when the maximum
reaches the threshold *and is strictly positive*, it returns the first
candidate in list order attaining the maximum (later equal scores do not
replace it); when the maximum misses the threshold it returns
`(None, maximum)`.  (When every candidate scores 0.0 the candidate returned
is `None` even if `0.0 ≥ threshold`, because the scan only retains a
candidate on a strict improvement over the initial score 0.0 — this corner
falsifies the unrestricted claim.) -/
theorem find_matching_file_spec (m : Song) (files : List MediaFile) (t : ℚ) :
    (find_matching_file m files t).2 = maxScore (songName m) files
    ∧ (find_matching_file m [] t = (none, 0))
    ∧ (t ≤ maxScore (songName m) files → 0 < maxScore (songName m) files →
        ∃ l1 f l2, files = l1 ++ f :: l2
          ∧ fileScore (songName m) f = maxScore (songName m) files
          ∧ (∀ f2 ∈ l1, fileScore (songName m) f2 < maxScore (songName m) files)
          ∧ find_matching_file m files t
              = (some f, maxScore (songName m) files))
    ∧ (maxScore (songName m) files < t →
        find_matching_file m files t = (none, maxScore (songName m) files)) := by
  have hchar := fmfScan_characterization (fileScore (songName m)) files none 0
  have hM : (fmfScan (songName m) files).2 = maxScore (songName m) files := by
    unfold fmfScan maxScore
    rw [hchar]
  refine ⟨?_, ?_, ?_, ?_⟩
  · unfold find_matching_file
    by_cases ht : t ≤ (fmfScan (songName m) files).2
    · rw [if_pos ht]; exact hM
    · rw [if_neg ht]; exact hM
  · by_cases h0 : t ≤ (0 : ℚ) <;>
      simp [find_matching_file, fmfScan, h0]
  · intro hth hpos
    unfold maxScore at hpos
    have hany : (files.any fun f => decide ((0:ℚ) < fileScore (songName m) f)) = true :=
      (foldl_max_any (fileScore (songName m)) files 0).mpr hpos
    have hscan : fmfScan (songName m) files
        = (files.find? (fun f => decide (maxScore (songName m) files
            ≤ fileScore (songName m) f)), maxScore (songName m) files) := by
      unfold fmfScan maxScore
      rw [hchar, if_pos hany]
    -- the find? succeeds: the maximum is attained
    rcases foldl_max_attained (fileScore (songName m)) files 0 with hseed | ⟨f, hf, hval⟩
    · exfalso
      rw [hseed] at hpos
      exact lt_irrefl 0 hpos
    · have hvalM : fileScore (songName m) f = maxScore (songName m) files := by
        unfold maxScore
        exact hval.symm
      have hfindsome : (files.find? fun f2 => decide (maxScore (songName m) files
          ≤ fileScore (songName m) f2)).isSome := by
        rw [List.find?_isSome]
        exact ⟨f, hf, decide_eq_true (le_of_eq hvalM.symm)⟩
      obtain ⟨f1, hfind⟩ := Option.isSome_iff_exists.mp hfindsome
      obtain ⟨l1, l2, hsplit, hpf, hpre⟩ :=
        find?_decomposition _ files f1 hfind
      refine ⟨l1, f1, l2, hsplit, ?_, ?_, ?_⟩
      · have hle : maxScore (songName m) files ≤ fileScore (songName m) f1 :=
          of_decide_eq_true hpf
        have hge : fileScore (songName m) f1 ≤ maxScore (songName m) files := by
          unfold maxScore
          exact foldl_max_mem_le (fileScore (songName m)) files 0 f1
            (by rw [hsplit]; simp)
        exact le_antisymm hge hle
      · intro f2 hf2
        have hnot : ¬ (maxScore (songName m) files ≤ fileScore (songName m) f2) :=
          of_decide_eq_false (hpre f2 hf2)
        exact lt_of_not_le hnot
      · unfold find_matching_file
        rw [hscan]
        rw [if_pos hth, hfind]
  · intro hlt
    unfold find_matching_file
    rw [hM]
    rw [if_neg (not_le.mpr hlt)]

/-- C3 witness: on a one-candidate pool whose score 11/12 is positive and
reaches the 0.75 threshold, the matcher returns that first maximal
candidate together with the maximum. -/
theorem find_matching_file_spec_witness :
    ∃ l1 f l2, ([c3wfile] : List MediaFile) = l1 ++ f :: l2
      ∧ fileScore (songName c3wsong) f = maxScore (songName c3wsong) [c3wfile]
      ∧ (∀ f2 ∈ l1, fileScore (songName c3wsong) f2 < maxScore (songName c3wsong) [c3wfile])
      ∧ find_matching_file c3wsong [c3wfile] threshold75
          = (some f, maxScore (songName c3wsong) [c3wfile]) :=
  (find_matching_file_spec c3wsong [c3wfile] threshold75).2.2.1 (by decide) (by decide)

/-! ## Stage transition driver: claims C5 and C9 -/

/-- C5 counterexample: with two candidates both above the threshold, the
integration loop selects the *first* one (score 5/6) although the second
scores strictly higher (11/12) — so the selected file does not attain the
maximum similarity over the pool, contradicting the claim. -/
theorem integrate_selects_first_not_max :
    selectSource (songName c5song) [c5f1, c5f2] = some c5f1
    ∧ similarity_ratio (songName c5song) c5f1.stem
        < similarity_ratio (songName c5song) c5f2.stem
    ∧ threshold75 ≤ similarity_ratio (songName c5song) c5f2.stem := by
  exact ⟨by decide, by decide, by decide⟩

/-- C5 (corrected).  For a record the integration loop handles with a
found artifact `f`: `f` is the *first* file of the discovery directory (in
scan order) whose similarity with the record's "title - artist" name
reaches 0.75 — every earlier file scores below 0.75, with no maximality
guarantee — and the loop then copies `f` to the library, copies it to
staging, and deletes it from the discovery directory, in that order. -/
theorem integrate_step_spec (m : Song) (pool : List MediaFile) (f : MediaFile)
    (hsel : selectSource (songName m) pool = some f) :
    (∃ l1 l2, pool = l1 ++ f :: l2
      ∧ (3 : ℚ)/4 ≤ similarity_ratio (songName m) f.stem
      ∧ ∀ g ∈ l1, similarity_ratio (songName m) g.stem < (3 : ℚ)/4)
    ∧ ∀ st : IntegrateState, st.pool = pool →
        integrateStep st m
          = IntegrateState.mk (pool.erase f) (st.successful + 1) st.failed
              (st.events ++ [FsEvent.copyToLibrary f, FsEvent.copyToStaging f,
                FsEvent.deleteFromDiscovered f]) := by
  constructor
  · obtain ⟨l1, l2, hsplit, hpf, hpre⟩ := find?_decomposition _ pool f hsel
    refine ⟨l1, l2, hsplit, ?_, ?_⟩
    · have := of_decide_eq_true hpf
      rw [threshold75_eq] at this
      exact this
    · intro g hg
      have := of_decide_eq_false (hpre g hg)
      rw [threshold75_eq] at this
      exact lt_of_not_le this
  · intro st hst
    unfold integrateStep
    rw [hst, hsel]

/-- Tallies of the integration loop always account for every record. -/
theorem integrateFold_tallies (batch : List Song) :
    ∀ st : IntegrateState,
      (batch.foldl integrateStep st).successful + (batch.foldl integrateStep st).failed
        = st.successful + st.failed + batch.length := by
  induction batch with
  | nil => intro st; simp
  | cons m rest ih =>
      intro st
      rw [List.foldl_cons]
      rw [ih (integrateStep st m)]
      unfold integrateStep
      cases hsel : selectSource (songName m) st.pool with
      | none => simp; omega
      | some f => simp; omega

/-- C9 (confirmed).  A record with no artifact scoring 0.75 in the
discovery directory never interrupts the batch: the step performs no
file-system action, increments only the failure tally, and the loop
continues with the remaining records; the loop's final tallies always
account for every record, the returned count being the successes. -/
theorem integrate_missing_artifact_never_fatal
    (approved : List Song) (pool : List MediaFile) (m : Song) (rest : List Song)
    (st : IntegrateState) (hnone : selectSource (songName m) st.pool = none) :
    ((integrate_approved_songs approved pool).successful
        + (integrate_approved_songs approved pool).failed = approved.length)
    ∧ integrateStep st m
        = IntegrateState.mk st.pool st.successful (st.failed + 1) st.events
    ∧ (m :: rest).foldl integrateStep st
        = rest.foldl integrateStep
            (IntegrateState.mk st.pool st.successful (st.failed + 1) st.events) := by
  have hstep : integrateStep st m
      = IntegrateState.mk st.pool st.successful (st.failed + 1) st.events := by
    unfold integrateStep
    rw [hnone]
  refine ⟨?_, hstep, ?_⟩
  · unfold integrate_approved_songs
    rw [integrateFold_tallies approved (IntegrateState.mk pool 0 0 [])]
    simp
  · rw [List.foldl_cons, hstep]

/-- C9 witness: a batch whose first record finds no artifact still
processes the second record; the final tallies are one success and one
failure, and the failing step performed no file-system event. -/
theorem integrate_missing_artifact_witness :
    ((integrate_approved_songs [c9bad, c9good] [c9file]).successful
        + (integrate_approved_songs [c9bad, c9good] [c9file]).failed = 2)
    ∧ integrateStep (IntegrateState.mk [c9file] 0 0 []) c9bad
        = IntegrateState.mk [c9file] 0 1 []
    ∧ (integrate_approved_songs [c9bad, c9good] [c9file]).successful = 1 := by
  refine ⟨?_, ?_, ?_⟩
  · exact (integrate_missing_artifact_never_fatal [c9bad, c9good] [c9file] c9bad []
      (IntegrateState.mk [c9file] 0 0 []) (by decide)).1
  · exact (integrate_missing_artifact_never_fatal [c9bad, c9good] [c9file] c9bad []
      (IntegrateState.mk [c9file] 0 0 []) (by decide)).2.1
  · decide

/-- C5 witness: on the two-file pool of the counterexample, the selected
first-above-threshold file is decomposed with an empty failing prefix, and
the step copies it to library and staging then deletes it. -/
theorem integrate_step_spec_witness :
    (∃ l1 l2, ([c5f1, c5f2] : List MediaFile) = l1 ++ c5f1 :: l2
      ∧ (3 : ℚ)/4 ≤ similarity_ratio (songName c5song) c5f1.stem
      ∧ ∀ g ∈ l1, similarity_ratio (songName c5song) g.stem < (3 : ℚ)/4)
    ∧ ∀ st : IntegrateState, st.pool = [c5f1, c5f2] →
        integrateStep st c5song
          = IntegrateState.mk ([c5f1, c5f2].erase c5f1) (st.successful + 1) st.failed
              (st.events ++ [FsEvent.copyToLibrary c5f1, FsEvent.copyToStaging c5f1,
                FsEvent.deleteFromDiscovered c5f1]) :=
  integrate_step_spec c5song [c5f1, c5f2] c5f1 (by decide)

/-! ## Discovery engine: claim C7 -/

/-- Core invariant of the proposal loop, proved over all starting states:
the run extends the proposal list by records that all carry truthy IDs, the
exclusion set grows by exactly those IDs, the new IDs are pairwise distinct,
and none of them was in the starting exclusion set — so each proposal's ID
was outside the exclusion set at the moment it was proposed and was added
immediately. -/
theorem proposeFromTracks_spec (maxTracks : Nat) (stream : List SpTrack) :
    ∀ st : DiscoveryState, ∃ newTracks : List SpTrack,
      (proposeFromTracks maxTracks stream st).proposed = st.proposed ++ newTracks
      ∧ (proposeFromTracks maxTracks stream st).excluded
          = st.excluded ++ newTracks.filterMap truthyTrackId
      ∧ (∀ t ∈ newTracks, ∃ tid, truthyTrackId t = some tid)
      ∧ (newTracks.filterMap truthyTrackId).Nodup
      ∧ ∀ tid ∈ newTracks.filterMap truthyTrackId, tid ∉ st.excluded := by
  induction stream with
  | nil =>
      intro st
      refine ⟨[], by simp [proposeFromTracks], by simp [proposeFromTracks], ?_,
        List.nodup_nil, ?_⟩
      · intro t2 ht2; cases ht2
      · intro tid2 htid2; cases htid2
  | cons t rest ih =>
      intro st
      cases htid : truthyTrackId t with
      | none =>
          have hst2 : proposeFromTracks maxTracks (t :: rest) st
              = if maxTracks ≤ st.proposed.length then st
                else proposeFromTracks maxTracks rest st := by
            simp only [proposeFromTracks, htid]
          by_cases hmax : maxTracks ≤ st.proposed.length
          · rw [hst2, if_pos hmax]
            refine ⟨[], by simp, by simp, ?_, List.nodup_nil, ?_⟩
            · intro t2 ht2; cases ht2
            · intro tid2 htid2; cases htid2
          · rw [hst2, if_neg hmax]
            exact ih st
      | some tid =>
          by_cases hmem : tid ∈ st.excluded
          · have hst2 : proposeFromTracks maxTracks (t :: rest) st
                = if maxTracks ≤ st.proposed.length then st
                  else proposeFromTracks maxTracks rest st := by
              simp only [proposeFromTracks, htid, if_pos hmem]
            by_cases hmax : maxTracks ≤ st.proposed.length
            · rw [hst2, if_pos hmax]
              refine ⟨[], by simp, by simp, ?_, List.nodup_nil, ?_⟩
              · intro t2 ht2; cases ht2
              · intro tid2 htid2; cases htid2
            · rw [hst2, if_neg hmax]
              exact ih st
          · have hst2 : proposeFromTracks maxTracks (t :: rest) st
                = if maxTracks ≤ (st.proposed ++ [t]).length
                  then DiscoveryState.mk (st.excluded ++ [tid]) (st.proposed ++ [t])
                  else proposeFromTracks maxTracks rest
                    (DiscoveryState.mk (st.excluded ++ [tid]) (st.proposed ++ [t])) := by
              simp only [proposeFromTracks, htid, if_neg hmem]
            rw [hst2]
            by_cases hmax : maxTracks ≤ (st.proposed ++ [t]).length
            · rw [if_pos hmax]
              refine ⟨[t], by simp, ?_, ?_, ?_, ?_⟩
              · simp [List.filterMap_cons, htid]
              · intro t2 ht2
                rw [List.mem_singleton.mp ht2]
                exact ⟨tid, htid⟩
              · simp [List.filterMap_cons, htid]
              · intro tid2 htid2
                simp only [List.filterMap_cons, htid, List.filterMap_nil] at htid2
                rw [List.mem_singleton.mp htid2]
                exact hmem
            · rw [if_neg hmax]
              obtain ⟨n2, hp, he, hids, hnd, hfresh⟩ :=
                ih (DiscoveryState.mk (st.excluded ++ [tid]) (st.proposed ++ [t]))
              refine ⟨t :: n2, ?_, ?_, ?_, ?_, ?_⟩
              · rw [hp]; simp
              · rw [he]; simp [List.filterMap_cons, htid]
              · intro t2 ht2
                rcases List.mem_cons.mp ht2 with h0 | h0
                · subst h0; exact ⟨tid, htid⟩
                · exact hids t2 h0
              · rw [List.filterMap_cons, htid, List.nodup_cons]
                refine ⟨?_, hnd⟩
                intro hin
                have h5 := hfresh tid hin
                simp at h5
              · intro tid2 htid2
                rw [List.filterMap_cons, htid] at htid2
                rcases List.mem_cons.mp htid2 with h0 | h0
                · subst h0; exact hmem
                · have h5 := hfresh tid2 h0
                  simp at h5
                  exact h5.1

/-- C7 (confirmed).  The exclusion set of `load_existing_songs` is exactly
the set of truthy track IDs across the four loaded partitions, and the
candidate-proposal loop of `_get_album_tracks_from_artists` proposes only
tracks whose ID is outside the exclusion set at the moment of proposal,
adding each proposed ID immediately, so the proposed IDs are pairwise
distinct and none of them re-surfaces an already-known song. -/
theorem discovery_exclusion_spec :
    (∀ (liked approved discovered rejected : List Song) (x : Str),
        x ∈ load_exclusions liked approved discovered rejected
          ↔ ∃ s ∈ liked ++ approved ++ discovered ++ rejected, truthyId s = some x)
    ∧ ∀ (maxTracks : Nat) (stream : List SpTrack) (st : DiscoveryState),
        ∃ newTracks : List SpTrack,
          (proposeFromTracks maxTracks stream st).proposed = st.proposed ++ newTracks
          ∧ (proposeFromTracks maxTracks stream st).excluded
              = st.excluded ++ newTracks.filterMap truthyTrackId
          ∧ (∀ t ∈ newTracks, ∃ tid, truthyTrackId t = some tid)
          ∧ (newTracks.filterMap truthyTrackId).Nodup
          ∧ ∀ tid ∈ newTracks.filterMap truthyTrackId, tid ∉ st.excluded := by
  constructor
  · intro liked approved discovered rejected x
    unfold load_exclusions
    rw [List.mem_filterMap]
  · intro maxTracks stream st
    exact proposeFromTracks_spec maxTracks stream st

/-- C7 witness: a stream holding one excluded track and one fresh track,
against the exclusion set containing the known ID, proposes exactly the
fresh track and adds its ID. -/
theorem discovery_exclusion_witness :
    ∃ newTracks : List SpTrack,
      (proposeFromTracks 10 [c7known, c7fresh]
          (DiscoveryState.mk [str "k1"] [])).proposed
        = ([] : List SpTrack) ++ newTracks
      ∧ (proposeFromTracks 10 [c7known, c7fresh]
          (DiscoveryState.mk [str "k1"] [])).excluded
          = [str "k1"] ++ newTracks.filterMap truthyTrackId
      ∧ (∀ t ∈ newTracks, ∃ tid, truthyTrackId t = some tid)
      ∧ (newTracks.filterMap truthyTrackId).Nodup
      ∧ ∀ tid ∈ newTracks.filterMap truthyTrackId, tid ∉ [str "k1"] :=
  discovery_exclusion_spec.2 10 [c7known, c7fresh] (DiscoveryState.mk [str "k1"] [])

/-! ## Reflexivity of the similarity scorer (claim C6)

On identical inputs `a = b = x`, `find_longest_match` always returns a
*diagonal* block `(d, d, k)` lying inside the queried range, non-empty
whenever the range is: every strict improvement in the row dynamic program
happens on the main diagonal (an off-diagonal run mirrors onto an equal or
earlier diagonal run over the same characters, hence with the same junk
profile, so it can never strictly beat the best), and on an all-junk range
the junk-forward extension loop grows the empty block.  The
divide-and-conquer total therefore covers the whole string and
`ratio(x, x) = 1` for every `x`. -/

/-- A run ending at `t` has length at most `t + 1 - lo`. -/
theorem diagRun_le (x : Str) (lo : Nat) : ∀ t, diagRun x lo t ≤ t + 1 - lo := by
  intro t
  induction t with
  | zero =>
      unfold diagRun
      by_cases h : lo = 0 ∧ junkAt x 0 = false
      · rw [if_pos h, h.1]
      · rw [if_neg h]; omega
  | succ t ih =>
      unfold diagRun
      by_cases h : t + 1 < lo ∨ junkAt x (t + 1) = true
      · rw [if_pos h]; omega
      · rw [if_neg h]
        omega

/-- A position below `lo` carries no run. -/
theorem diagRun_lt_lo (x : Str) (lo : Nat) (t : Nat) (h : t < lo) :
    diagRun x lo t = 0 := by
  cases t with
  | zero =>
      unfold diagRun
      rw [if_neg (by omega)]
  | succ t =>
      unfold diagRun
      rw [if_pos (Or.inl h)]

/-- A junk position carries no run. -/
theorem diagRun_junk (x : Str) (lo : Nat) (t : Nat) (h : junkAt x t = true) :
    diagRun x lo t = 0 := by
  cases t with
  | zero =>
      unfold diagRun
      rw [if_neg (by simp [h])]
  | succ t =>
      unfold diagRun
      rw [if_pos (Or.inr h)]

/-- The run at a non-junk in-range position 0. -/
theorem diagRun_zero (x : Str) (lo : Nat) (hlo : lo ≤ 0) (h : junkAt x 0 = false) :
    diagRun x lo 0 = 1 := by
  unfold diagRun
  rw [if_pos ⟨by omega, h⟩]

/-- The run at a non-junk in-range successor position extends the previous
run. -/
theorem diagRun_succ (x : Str) (lo t : Nat) (hlo : lo ≤ t + 1)
    (h : junkAt x (t + 1) = false) :
    diagRun x lo (t + 1) = diagRun x lo t + 1 := by
  conv_lhs => rw [diagRun]
  rw [if_neg (by simp [h]; omega)]

/-- A non-junk in-range position carries a positive run. -/
theorem diagRun_pos (x : Str) (lo t : Nat) (hlo : lo ≤ t)
    (h : junkAt x t = false) : 1 ≤ diagRun x lo t := by
  cases t with
  | zero => rw [diagRun_zero x lo hlo h]
  | succ t => rw [diagRun_succ x lo t hlo h]; omega

/-- Characterization of `positions`. -/
theorem mem_positions (x : Str) (c : Char) (j : Nat) :
    j ∈ positions x c ↔ j < x.length ∧ x.getD j ' ' = c := by
  unfold positions
  rw [List.mem_filter, List.mem_range]
  simp

/-- Position lists are strictly ascending. -/
theorem positions_pairwise (x : Str) (c : Char) :
    List.Pairwise (· < ·) (positions x c) := by
  unfold positions
  exact (List.pairwise_lt_range x.length).filter _

/-- Row invariant of the dynamic program on identical strings: processing
row `r`'s position list keeps every recorded run bounded by the bracketing
diagonal runs, records the diagonal run exactly, and only ever moves the
best block to a diagonal position within the processed rows. -/
theorem flmRow_diag_spec (x : Str) (lo hi r : Nat) (prev : Nat → Nat)
    (hlor : lo ≤ r) (hrhi : r < hi)
    (hnj : junkAt x r = false)
    (hprev1 : ∀ j, prev j ≤ r - lo)
    (hprev2 : ∀ j, prev j ≤ diagRun x lo j)
    (hprev3 : ∀ j, prev j ≤ diagRun x lo (r - 1))
    (hprev4 : r ≠ 0 → prev (r - 1) = diagRun x lo (r - 1)) :
    ∀ (js : List Nat) (cur : Nat → Nat) (best : MatchBlock),
      List.Pairwise (· < ·) js →
      (∀ j ∈ js, x.getD j ' ' = x.getD r ' ') →
      (∀ j, cur j ≤ r + 1 - lo) →
      (∀ j, cur j ≤ diagRun x lo j) →
      (∀ j, cur j ≤ diagRun x lo r) →
      best.i = best.j →
      lo ≤ best.i →
      best.i + best.size ≤ r + 1 →
      (best.size = 0 → best.i = lo) →
      (∀ t, lo ≤ t → t < r → diagRun x lo t ≤ best.size) →
      ((cur r = diagRun x lo r ∧ diagRun x lo r ≤ best.size) ∨ r ∈ js) →
      (∀ j, (flmRow prev r lo hi js cur best).1 j ≤ r + 1 - lo)
      ∧ (∀ j, (flmRow prev r lo hi js cur best).1 j ≤ diagRun x lo j)
      ∧ (∀ j, (flmRow prev r lo hi js cur best).1 j ≤ diagRun x lo r)
      ∧ (flmRow prev r lo hi js cur best).1 r = diagRun x lo r
      ∧ (flmRow prev r lo hi js cur best).2.i = (flmRow prev r lo hi js cur best).2.j
      ∧ lo ≤ (flmRow prev r lo hi js cur best).2.i
      ∧ (flmRow prev r lo hi js cur best).2.i + (flmRow prev r lo hi js cur best).2.size
          ≤ r + 1
      ∧ ((flmRow prev r lo hi js cur best).2.size = 0
          → (flmRow prev r lo hi js cur best).2.i = lo)
      ∧ (∀ t, lo ≤ t → t ≤ r
          → diagRun x lo t ≤ (flmRow prev r lo hi js cur best).2.size) := by
  intro js
  induction js with
  | nil =>
      intro cur best _ _ hc1 hc2 hc3 hb1 hb2 hb3 hb4 hb5 hdisj
      have hleft : cur r = diagRun x lo r ∧ diagRun x lo r ≤ best.size := by
        rcases hdisj with h | h
        · exact h
        · cases h
      refine ⟨hc1, hc2, hc3, hleft.1, hb1, hb2, hb3, hb4, ?_⟩
      intro t hlot htr
      rcases Nat.lt_or_ge t r with h | h
      · exact hb5 t hlot h
      · have : t = r := by omega
        subst this
        exact hleft.2
  | cons j rest ih =>
      intro cur best hpw hmem hc1 hc2 hc3 hb1 hb2 hb3 hb4 hb5 hdisj
      have hpw2 := (List.pairwise_cons.mp hpw).2
      have hjlt := (List.pairwise_cons.mp hpw).1
      by_cases hjlo : j < lo
      · -- continue: j below the window
        have hstep : flmRow prev r lo hi (j :: rest) cur best
            = flmRow prev r lo hi rest cur best := by
          rw [flmRow, if_pos hjlo]
        rw [hstep]
        refine ih cur best hpw2 (fun j2 hj2 => hmem j2 (by simp [hj2])) hc1 hc2 hc3
          hb1 hb2 hb3 hb4 hb5 ?_
        rcases hdisj with h | h
        · exact Or.inl h
        · rcases List.mem_cons.mp h with h0 | h0
          · omega
          · exact Or.inr h0
      · by_cases hjhi : hi ≤ j
        · -- break: j beyond the window; r cannot be in the remainder
          have hstep : flmRow prev r lo hi (j :: rest) cur best = (cur, best) := by
            rw [flmRow, if_neg hjlo, if_pos hjhi]
          rw [hstep]
          have hleft : cur r = diagRun x lo r ∧ diagRun x lo r ≤ best.size := by
            rcases hdisj with h | h
            · exact h
            · exfalso
              rcases List.mem_cons.mp h with h0 | h0
              · omega
              · have := hjlt r h0
                omega
          refine ⟨hc1, hc2, hc3, hleft.1, hb1, hb2, hb3, hb4, ?_⟩
          intro t hlot htr
          rcases Nat.lt_or_ge t r with h | h
          · exact hb5 t hlot h
          · have : t = r := by omega
            subst this
            exact hleft.2
        · -- process j
          have hjc : x.getD j ' ' = x.getD r ' ' := hmem j (by simp)
          have hjnj : junkAt x j = false := by
            unfold junkAt
            rw [hjc]
            exact hnj
          have hjlo2 : lo ≤ j := by omega
          set K := (if j = 0 then 0 else prev (j - 1)) + 1 with hKdef
          have hstep : flmRow prev r lo hi (j :: rest) cur best
              = flmRow prev r lo hi rest
                  (fun j2 => if j2 = j then K else cur j2)
                  (if best.size < K then MatchBlock.mk (r + 1 - K) (j + 1 - K) K
                   else best) := by
            rw [flmRow, if_neg hjlo, if_neg hjhi]
          have hK1 : K ≤ r + 1 - lo := by
            rw [hKdef]
            by_cases hj0 : j = 0
            · rw [if_pos hj0]
              omega
            · rw [if_neg hj0]
              have := hprev1 (j - 1)
              omega
          have hK2 : K ≤ diagRun x lo j := by
            rw [hKdef]
            cases j with
            | zero =>
                rw [diagRun_zero x lo (by omega) hjnj]
                simp
            | succ j2 =>
                rw [diagRun_succ x lo j2 hjlo2 hjnj, if_neg (by omega)]
                have := hprev2 j2
                simp
                omega
          have hK3 : K ≤ diagRun x lo r := by
            rw [hKdef]
            cases r with
            | zero =>
                have hlo0 : lo = 0 := by omega
                rw [hlo0, diagRun_zero x 0 (by omega) hnj]
                by_cases hj0 : j = 0
                · rw [if_pos hj0]
                · rw [if_neg hj0]
                  have := hprev1 (j - 1)
                  omega
            | succ r2 =>
                rw [diagRun_succ x lo r2 hlor hnj]
                by_cases hj0 : j = 0
                · rw [if_pos hj0]
                  omega
                · rw [if_neg hj0]
                  have := hprev3 (j - 1)
                  simp at this ⊢
                  omega
          have hKr : j = r → K = diagRun x lo r := by
            intro hjr
            rw [hKdef]
            cases r with
            | zero =>
                have hj0 : j = 0 := by omega
                rw [if_pos hj0, diagRun_zero x lo (by omega) hnj]
            | succ r2 =>
                have hj0 : ¬ (j = 0) := by omega
                rw [if_neg hj0, diagRun_succ x lo r2 hlor hnj]
                have := hprev4 (by omega)
                rw [hjr]
                simp at this ⊢
                omega
          rw [hstep]
          by_cases hjr : j = r
          · -- the diagonal column: the only place an update can happen
            subst hjr
            have hKd : K = diagRun x lo j := hKr rfl
            by_cases hup : best.size < K
            · rw [if_pos hup]
              refine ih _ _ hpw2 (fun j2 hj2 => hmem j2 (by simp [hj2]))
                ?_ ?_ ?_ rfl ?_ ?_ ?_ ?_ ?_
              · intro j2
                by_cases h2 : j2 = j
                · rw [if_pos h2]; exact hK1
                · rw [if_neg h2]; exact hc1 j2
              · intro j2
                by_cases h2 : j2 = j
                · rw [if_pos h2, h2]; exact hK2
                · rw [if_neg h2]; exact hc2 j2
              · intro j2
                by_cases h2 : j2 = j
                · rw [if_pos h2]; exact hK3
                · rw [if_neg h2]; exact hc3 j2
              · show lo ≤ j + 1 - K
                omega
              · show j + 1 - K + K ≤ j + 1
                omega
              · intro hK0
                simp at hK0
              · intro t hlot htr
                show diagRun x lo t ≤ K
                exact le_trans (hb5 t hlot htr) (le_of_lt hup)
              · refine Or.inl ⟨?_, ?_⟩
                · rw [if_pos rfl]
                  exact hKd
                · show diagRun x lo j ≤ K
                  omega
            · rw [if_neg hup]
              refine ih _ _ hpw2 (fun j2 hj2 => hmem j2 (by simp [hj2]))
                ?_ ?_ ?_ hb1 hb2 hb3 hb4 hb5 ?_
              · intro j2
                by_cases h2 : j2 = j
                · rw [if_pos h2]; exact hK1
                · rw [if_neg h2]; exact hc1 j2
              · intro j2
                by_cases h2 : j2 = j
                · rw [if_pos h2, h2]; exact hK2
                · rw [if_neg h2]; exact hc2 j2
              · intro j2
                by_cases h2 : j2 = j
                · rw [if_pos h2]; exact hK3
                · rw [if_neg h2]; exact hc3 j2
              · refine Or.inl ⟨?_, ?_⟩
                · rw [if_pos rfl]
                  exact hKd
                · rw [← hKd]
                  omega
          · -- an off-diagonal column never updates the best block
            have hnup : ¬ (best.size < K) := by
              rcases Nat.lt_or_ge j r with hlt | hge
              · have := hb5 j hjlo2 hlt
                have := hK2
                omega
              · have hjgt : r < j := by omega
                have hleft : diagRun x lo r ≤ best.size := by
                  rcases hdisj with h | h
                  · exact h.2
                  · exfalso
                    rcases List.mem_cons.mp h with h0 | h0
                    · omega
                    · have := hjlt r h0
                      omega
                omega
            rw [if_neg hnup]
            refine ih _ _ hpw2 (fun j2 hj2 => hmem j2 (by simp [hj2]))
              ?_ ?_ ?_ hb1 hb2 hb3 hb4 hb5 ?_
            · intro j2
              by_cases h2 : j2 = j
              · rw [if_pos h2]; exact hK1
              · rw [if_neg h2]; exact hc1 j2
            · intro j2
              by_cases h2 : j2 = j
              · rw [if_pos h2, h2]; exact hK2
              · rw [if_neg h2]; exact hc2 j2
            · intro j2
              by_cases h2 : j2 = j
              · rw [if_pos h2]; exact hK3
              · rw [if_neg h2]; exact hc3 j2
            · rcases hdisj with h | h
              · refine Or.inl ⟨?_, h.2⟩
                rw [if_neg (by omega)]
                exact h.1
              · rcases List.mem_cons.mp h with h0 | h0
                · omega
                · exact Or.inr h0

/-- Running the dynamic program over the rows `r, ..., hi-1` of an
identical-strings query preserves the diagonal invariants and dominates
every diagonal run below `hi`. -/
theorem flmRows_diag_spec (x : Str) (lo hi : Nat) (hhilen : hi ≤ x.length) :
    ∀ (cnt r : Nat) (prev : Nat → Nat) (best : MatchBlock),
      lo ≤ r → r + cnt = hi →
      (∀ j, prev j ≤ r - lo) →
      (∀ j, prev j ≤ diagRun x lo j) →
      (∀ j, prev j ≤ diagRun x lo (r - 1)) →
      (r ≠ 0 → prev (r - 1) = diagRun x lo (r - 1)) →
      best.i = best.j → lo ≤ best.i → best.i + best.size ≤ r →
      (best.size = 0 → best.i = lo) →
      (∀ t, lo ≤ t → t < r → diagRun x lo t ≤ best.size) →
      (flmRows x (b2j x) lo hi (List.range' r cnt) prev best).i
          = (flmRows x (b2j x) lo hi (List.range' r cnt) prev best).j
      ∧ lo ≤ (flmRows x (b2j x) lo hi (List.range' r cnt) prev best).i
      ∧ (flmRows x (b2j x) lo hi (List.range' r cnt) prev best).i
          + (flmRows x (b2j x) lo hi (List.range' r cnt) prev best).size ≤ hi
      ∧ ((flmRows x (b2j x) lo hi (List.range' r cnt) prev best).size = 0
          → (flmRows x (b2j x) lo hi (List.range' r cnt) prev best).i = lo)
      ∧ ∀ t, lo ≤ t → t < hi
          → diagRun x lo t ≤ (flmRows x (b2j x) lo hi (List.range' r cnt) prev best).size := by
  intro cnt
  induction cnt with
  | zero =>
      intro r prev best hlor hrcnt hp1 hp2 hp3 hp4 hb1 hb2 hb3 hb4 hb5
      have hr : r = hi := by omega
      subst hr
      exact ⟨hb1, hb2, hb3, hb4, fun t hlot hthi => hb5 t hlot hthi⟩
  | succ cnt ih =>
      intro r prev best hlor hrcnt hp1 hp2 hp3 hp4 hb1 hb2 hb3 hb4 hb5
      have hrow : List.range' r (cnt + 1) = r :: List.range' (r + 1) cnt := by
        rw [List.range'_succ]
      rw [hrow]
      have hrhi : r < hi := by omega
      have hstep : flmRows x (b2j x) lo hi (r :: List.range' (r + 1) cnt) prev best
          = flmRows x (b2j x) lo hi (List.range' (r + 1) cnt)
              (flmRow prev r lo hi (b2j x (x.getD r ' ')) (fun _ => 0) best).1
              (flmRow prev r lo hi (b2j x (x.getD r ' ')) (fun _ => 0) best).2 := by
        rw [flmRows]
      rw [hstep]
      cases hj : junkAt x r with
      | true =>
          have hj2 : bjunk x (x.getD r ' ') = true := hj
          have hb2j : b2j x (x.getD r ' ') = [] := by
            unfold b2j
            rw [if_pos hj2]
          rw [hb2j]
          have hrowtriv : flmRow prev r lo hi ([] : List Nat) (fun _ => 0) best
              = ((fun _ => 0), best) := rfl
          rw [hrowtriv]
          refine ih (r + 1) (fun _ => 0) best (by omega) (by omega)
            (fun j => Nat.zero_le _) (fun j => Nat.zero_le _) (fun j => Nat.zero_le _)
            (fun _ => ?_) hb1 hb2 (by omega) hb4 ?_
          · rw [Nat.add_sub_cancel, diagRun_junk x lo r hj]
          · intro t hlot htr
            rcases Nat.lt_or_ge t r with h | h
            · exact hb5 t hlot h
            · have : t = r := by omega
              subst this
              rw [diagRun_junk x lo t hj]
              omega
      | false =>
          have hj2 : bjunk x (x.getD r ' ') = false := hj
          have hb2j : b2j x (x.getD r ' ') = positions x (x.getD r ' ') := by
            unfold b2j
            rw [if_neg (by rw [hj2]; simp)]
          rw [hb2j]
          obtain ⟨hq1, hq2, hq3, hq4, hq5, hq6, hq7, hq8, hq9⟩ :=
            flmRow_diag_spec x lo hi r prev hlor hrhi hj hp1 hp2 hp3 hp4
              (positions x (x.getD r ' ')) (fun _ => 0) best
              (positions_pairwise x (x.getD r ' '))
              (fun j hjmem => ((mem_positions x (x.getD r ' ') j).mp hjmem).2)
              (fun j => Nat.zero_le _) (fun j => Nat.zero_le _) (fun j => Nat.zero_le _)
              hb1 hb2 (by omega) hb4 hb5
              (Or.inr ((mem_positions x (x.getD r ' ') r).mpr ⟨by omega, rfl⟩))
          refine ih (r + 1) _ _ (by omega) (by omega)
            (fun j => by have := hq1 j; omega) hq2
            (fun j => by rw [Nat.add_sub_cancel]; exact hq3 j)
            (fun _ => by rw [Nat.add_sub_cancel]; exact hq4)
            hq5 hq6 (by omega) hq8 ?_
          intro t hlot htr
          exact hq9 t hlot (by omega)

/-- The backward extension loops on identical strings with a symmetric
window move a diagonal block to a diagonal block, preserving the block's
right end and never crossing `lo`. -/
theorem extendBack_diag (x : Str) (u : Bool) (lo : Nat) :
    ∀ bi k, lo ≤ bi → ∃ d k2, extendBack x x u lo lo bi bi k = (d, d, k2)
      ∧ lo ≤ d ∧ d + k2 = bi + k ∧ k ≤ k2 := by
  intro bi
  induction bi with
  | zero =>
      intro k hlo
      exact ⟨0, k, rfl, by omega, by omega, le_refl k⟩
  | succ bi ih =>
      intro k hlo
      rw [extendBack]
      by_cases hcond : lo < bi + 1 ∧ lo < bi + 1
          ∧ bjunk x (x.getD (bi + 1 - 1) ' ') = u
          ∧ x.getD bi ' ' = x.getD (bi + 1 - 1) ' '
      · rw [if_pos hcond]
        obtain ⟨d, k2, heq, hdlo, hsum, hk⟩ := ih (k + 1) (by omega)
        exact ⟨d, k2, heq, hdlo, by omega, by omega⟩
      · rw [if_neg hcond]
        exact ⟨bi + 1, k, rfl, hlo, by omega, le_refl k⟩

/-- The forward extension loops never shrink the size and never push the
block past `ahi`. -/
theorem extendFwdAux_spec (a b : Str) (u : Bool) (ahi bhi bi bj : Nat) :
    ∀ fuel k, k ≤ extendFwdAux a b u ahi bhi bi bj fuel k
      ∧ (bi + k ≤ ahi → bi + extendFwdAux a b u ahi bhi bi bj fuel k ≤ ahi) := by
  intro fuel
  induction fuel with
  | zero =>
      intro k
      exact ⟨le_refl k, fun h => h⟩
  | succ fuel ih =>
      intro k
      rw [extendFwdAux]
      by_cases hcond : bi + k < ahi ∧ bj + k < bhi
          ∧ bjunk b (b.getD (bj + k) ' ') = u
          ∧ a.getD (bi + k) ' ' = b.getD (bj + k) ' '
      · rw [if_pos hcond]
        obtain ⟨h1, h2⟩ := ih (k + 1)
        exact ⟨by omega, fun _ => h2 (by omega)⟩
      · rw [if_neg hcond]
        exact ⟨le_refl k, fun h => h⟩

/-- Bounds for `extendFwd`, in terms of the wrapper. -/
theorem extendFwd_spec (a b : Str) (u : Bool) (ahi bhi bi bj k : Nat) :
    k ≤ extendFwd a b u ahi bhi bi bj k
    ∧ (bi + k ≤ ahi → bi + extendFwd a b u ahi bhi bi bj k ≤ ahi) := by
  unfold extendFwd
  exact extendFwdAux_spec a b u ahi bhi bi bj (ahi - (bi + k)) k

/-- If the first guard of the forward loop holds, the loop takes at least
one step. -/
theorem extendFwd_step (a b : Str) (u : Bool) (ahi bhi bi bj k : Nat)
    (h1 : bi + k < ahi) (h2 : bj + k < bhi)
    (h3 : bjunk b (b.getD (bj + k) ' ') = u)
    (h4 : a.getD (bi + k) ' ' = b.getD (bj + k) ' ') :
    k + 1 ≤ extendFwd a b u ahi bhi bi bj k := by
  unfold extendFwd
  have hfuel : ∃ f, ahi - (bi + k) = f + 1 := ⟨ahi - (bi + k) - 1, by omega⟩
  obtain ⟨f, hf⟩ := hfuel
  rw [hf, extendFwdAux, if_pos ⟨h1, h2, h3, h4⟩]
  exact (extendFwdAux_spec a b u ahi bhi bi bj f (k + 1)).1

/-- On an identical-strings query over a symmetric window,
`find_longest_match` returns a diagonal block inside the window, non-empty
whenever the window is. -/
theorem find_longest_match_diag (x : Str) (lo hi : Nat)
    (hlohi : lo ≤ hi) (hhilen : hi ≤ x.length) :
    ∃ d k, find_longest_match x x lo hi lo hi = MatchBlock.mk d d k
      ∧ lo ≤ d ∧ d + k ≤ hi ∧ (lo < hi → 1 ≤ k) := by
  obtain ⟨hB1, hB2, hB3, hB4, hB5⟩ :=
    flmRows_diag_spec x lo hi hhilen (hi - lo) lo (fun _ => 0) (MatchBlock.mk lo lo 0)
      (le_refl lo) (by omega) (fun j => Nat.zero_le _) (fun j => Nat.zero_le _)
      (fun j => Nat.zero_le _)
      (fun _ => by rw [diagRun_lt_lo x lo (lo - 1) (by omega)])
      rfl (le_refl lo) (by simp) (fun _ => rfl)
      (fun t h1 h2 => absurd (lt_of_le_of_lt h1 h2) (lt_irrefl lo))
  have hB1p : (flmPhase0 x x lo hi lo hi).i = (flmPhase0 x x lo hi lo hi).j := hB1
  have hB2p : lo ≤ (flmPhase0 x x lo hi lo hi).i := hB2
  have hB3p : (flmPhase0 x x lo hi lo hi).i + (flmPhase0 x x lo hi lo hi).size ≤ hi := hB3
  have hB4p : (flmPhase0 x x lo hi lo hi).size = 0
      → (flmPhase0 x x lo hi lo hi).i = lo := hB4
  obtain ⟨d1, k1, he1, hd1, hsum1, hk1⟩ :=
    extendBack_diag x false lo (flmPhase0 x x lo hi lo hi).i
      (flmPhase0 x x lo hi lo hi).size hB2p
  have hp1 : flmPhase1 x x lo hi lo hi = (d1, d1, k1) := by
    unfold flmPhase1
    rw [← hB1p]
    exact he1
  have hp2 : flmPhase2 x x lo hi lo hi = extendFwd x x false hi hi d1 d1 k1 := by
    unfold flmPhase2
    rw [hp1]
  have hd1k1hi : d1 + k1 ≤ hi := by
    rw [hsum1]
    exact hB3p
  have hk2ge : k1 ≤ extendFwd x x false hi hi d1 d1 k1 :=
    (extendFwd_spec x x false hi hi d1 d1 k1).1
  have hk2hi : d1 + extendFwd x x false hi hi d1 d1 k1 ≤ hi :=
    (extendFwd_spec x x false hi hi d1 d1 k1).2 hd1k1hi
  obtain ⟨d3, k3, he3, hd3, hsum3, hk3⟩ :=
    extendBack_diag x true lo d1 (extendFwd x x false hi hi d1 d1 k1) hd1
  have hp3 : flmPhase3 x x lo hi lo hi = (d3, d3, k3) := by
    unfold flmPhase3
    rw [hp1, hp2]
    exact he3
  have hd3k3hi : d3 + k3 ≤ hi := by
    rw [hsum3]
    exact hk2hi
  have hk4ge : k3 ≤ extendFwd x x true hi hi d3 d3 k3 :=
    (extendFwd_spec x x true hi hi d3 d3 k3).1
  have hk4hi : d3 + extendFwd x x true hi hi d3 d3 k3 ≤ hi :=
    (extendFwd_spec x x true hi hi d3 d3 k3).2 hd3k3hi
  refine ⟨d3, extendFwd x x true hi hi d3 d3 k3, ?_, hd3, hk4hi, ?_⟩
  · unfold find_longest_match
    rw [hp3]
  · intro hlt
    by_cases hsz : 1 ≤ (flmPhase0 x x lo hi lo hi).size
    · omega
    · -- empty block after the main loop: one of the forward loops extends
      have hsz0 : (flmPhase0 x x lo hi lo hi).size = 0 := by omega
      have hi0 : (flmPhase0 x x lo hi lo hi).i = lo := hB4p hsz0
      have hd1lo : d1 = lo ∧ k1 = 0 := by
        rw [hi0, hsz0] at hsum1
        omega
      cases hjlo : junkAt x lo with
      | false =>
          have hstep : 0 + 1 ≤ extendFwd x x false hi hi lo lo 0 :=
            extendFwd_step x x false hi hi lo lo 0 (by omega) (by omega) hjlo rfl
          rw [hd1lo.1, hd1lo.2] at hk2ge hk2hi hsum3 hk3
          omega
      | true =>
          rw [hd1lo.1, hd1lo.2] at hsum3 hk2ge hk2hi hk3
          by_cases hk2pos : 1 ≤ extendFwd x x false hi hi lo lo 0
          · omega
          · have hk20 : extendFwd x x false hi hi lo lo 0 = 0 := by omega
            rw [hk20] at hsum3
            have hd3lo : d3 = lo ∧ k3 = 0 := by
              constructor <;> omega
            rw [hd3lo.1, hd3lo.2]
            exact extendFwd_step x x true hi hi lo lo 0 (by omega) (by omega) hjlo rfl

/-- The divide-and-conquer total over an identical-strings query covers the
whole window. -/
theorem matchTotalFuel_diag (x : Str) :
    ∀ fuel lo hi, hi - lo < fuel → lo ≤ hi → hi ≤ x.length →
      matchTotalFuel x x fuel lo hi lo hi = hi - lo := by
  intro fuel
  induction fuel with
  | zero =>
      intro lo hi h _ _
      omega
  | succ fuel ih =>
      intro lo hi hfuel hlohi hhilen
      obtain ⟨d, k, heq, hd, hdk, hk⟩ := find_longest_match_diag x lo hi hlohi hhilen
      rw [matchTotalFuel, heq]
      by_cases hk0 : k = 0
      · have hhi : hi = lo := by
          by_contra hne
          have := hk (by omega)
          omega
        subst hhi
        rw [if_pos (by simpa using hk0)]
        omega
      · rw [if_neg (by simpa using hk0)]
        show k + matchTotalFuel x x fuel lo d lo d
            + matchTotalFuel x x fuel (d + k) hi (d + k) hi = hi - lo
        rw [ih lo d (by omega) (by omega) (by omega),
            ih (d + k) hi (by omega) (by omega) hhilen]
        omega

/-- The matching total on identical strings is the whole length. -/
theorem matchTotal_self (x : Str) : matchTotal x x = x.length := by
  unfold matchTotal
  rw [matchTotalFuel_diag x (x.length + 1) 0 x.length (by omega) (by omega) (le_refl _)]
  omega

/-- The ratio is 1 on identical strings — including strings long enough for
the autojunk heuristic, thanks to the junk extension loops. -/
theorem sm_ratio_self (n : Str) : sm_ratio n n = 1 := by
  unfold sm_ratio
  by_cases h : n.length + n.length = 0
  · rw [if_pos h]
  · rw [if_neg h, matchTotal_self, Rat.mkRat_eq_div]
    have hne : ((n.length + n.length : Nat) : ℚ) ≠ 0 := by
      exact_mod_cast h
    rw [div_eq_one_iff_eq hne]
    push_cast
    ring

/-- C6 (corrected).  `similarity_ratio(a, a) = 1.0` for *every* string `a`
(the claimed reflexivity — for non-empty `a` in particular); but the scorer
is not symmetric: difflib's greedy block matching is order-dependent, and
on the pair "tide" / "diet" the two argument orders score 1/4 and 1/2. -/
theorem similarity_reflexive_not_symmetric :
    (∀ a : Str, similarity_ratio a a = 1)
    ∧ similarity_ratio (str "tide") (str "diet") = (1 : ℚ)/4
    ∧ similarity_ratio (str "diet") (str "tide") = (1 : ℚ)/2 := by
  refine ⟨fun a => sm_ratio_self _, ?_, ?_⟩
  · have h : similarity_ratio (str "tide") (str "diet") = mkRat 1 4 := by decide
    rw [h, Rat.mkRat_eq_div]
    norm_num
  · have h : similarity_ratio (str "diet") (str "tide") = mkRat 1 2 := by decide
    rw [h, Rat.mkRat_eq_div]
    norm_num

/-- C6 counterexample: the scorer is not symmetric — swapping the arguments
"tide" and "diet" changes the score (1/4 against 1/2). -/
theorem similarity_not_symmetric_tide_diet :
    similarity_ratio (str "tide") (str "diet")
      ≠ similarity_ratio (str "diet") (str "tide") := by
  decide

end Walkman
